import Mathlib

/-
  Verification development for the UMFPACK symbolic-analysis sources
  (UMFPACK/Source/umfpack_qsymbolic.c and UMFPACK/Source/umfpack_free_numeric.c).

  The C code is shallowly embedded: C arrays become Lean lists of integers,
  C loops become folds over index ranges, and the double-precision bookkeeping
  of the resource simulation is modelled with exact rationals.  Constants and
  helper routines that live in headers outside the two source files
  (umfpack.h, umf_internal.h) are modelled from the specification and are
  marked as such in their doc comments.
-/

namespace UMF

/-- Sentinel used throughout the C sources for "no index / not present". -/
def EMPTY : Int := -1

/-! ### Constants from umfpack.h

Modelled from the spec: the numeric values of the ordering and strategy
options are declared in umfpack.h, which is not among the analysed source
files; the spec lists the recognized option sets.  The values below follow
the public UMFPACK header.  Only their relative order and distinctness
matter to the code under analysis. -/

def UMFPACK_ORDERING_CHOLMOD : Int := 0
def UMFPACK_ORDERING_AMD : Int := 1
def UMFPACK_ORDERING_GIVEN : Int := 2
def UMFPACK_ORDERING_METIS : Int := 3
def UMFPACK_ORDERING_BEST : Int := 4
def UMFPACK_ORDERING_NONE : Int := 5
def UMFPACK_ORDERING_USER : Int := 6
def UMFPACK_ORDERING_METIS_GUARD : Int := 7
def UMFPACK_DEFAULT_ORDERING : Int := UMFPACK_ORDERING_AMD

def UMFPACK_STRATEGY_AUTO : Int := 0
def UMFPACK_STRATEGY_UNSYMMETRIC : Int := 1
def UMFPACK_STRATEGY_OBSOLETE : Int := 2
def UMFPACK_STRATEGY_SYMMETRIC : Int := 3
def UMFPACK_DEFAULT_STRATEGY : Int := UMFPACK_STRATEGY_AUTO

/-- Status codes of the symbolic analysis.  Modelled from the spec: the
integer values live in umfpack.h; the spec lists the code set
(OK, argument_missing, n_nonpositive, invalid_matrix, invalid_permutation,
out_of_memory, ordering_failed, internal_error). -/
inductive Status where
  | ok
  | argument_missing
  | n_nonpositive
  | invalid_matrix
  | invalid_permutation
  | out_of_memory
  | ordering_failed
  | internal_error
deriving DecidableEq, Repr

/-! ### List access helpers (C array reads and writes) -/

/-- Read of a C integer array at a nonnegative index; a read at an index the
analysed code never produces returns 0. -/
def aget (l : List Int) (i : Int) : Int :=
  if i < 0 then 0 else l.getD i.toNat 0

/-- Write of a C integer array at a nonnegative index; out-of-range writes
(which the analysed code never performs) leave the list unchanged. -/
def aset (l : List Int) (i : Int) (v : Int) : List Int :=
  if i < 0 then l else l.set i.toNat v

theorem aget_nonneg_def (l : List Int) (i : Nat) : aget l i = l.getD i 0 := by
  simp [aget]

theorem aset_nonneg_def (l : List Int) (i : Nat) (v : Int) :
    aset l i v = l.set i v := by
  simp [aset]

theorem getD_of_lt (l : List Int) (j : Nat) (d : Int) (h : j < l.length) :
    l.getD j d = l[j] := by
  simp [List.getD_eq_getElem?_getD, List.getElem?_eq_getElem h]

/-- Exact ceiling of a rational, written with the executable Rat.floor so
that concrete witnesses evaluate by decide. -/
def qceil (q : ℚ) : Int := -Rat.floor (-q)

theorem qceil_le_iff {q : ℚ} {z : Int} : qceil q ≤ z ↔ q ≤ (z : ℚ) := by
  unfold qceil
  rw [neg_le, Rat.le_floor]
  push_cast
  constructor <;> intro h <;> linarith

theorem le_qceil (q : ℚ) : q ≤ (qceil q : ℚ) :=
  qceil_le_iff.mp le_rfl

theorem qceil_mono {q r : ℚ} (h : q ≤ r) : qceil q ≤ qceil r :=
  qceil_le_iff.mpr (le_trans h (le_qceil r))

theorem intCast_le_qceil {z : Int} {q : ℚ} (h : (z : ℚ) ≤ q) : z ≤ qceil q := by
  by_contra hc
  push_neg at hc
  have := qceil_le_iff.mp (le_of_lt hc)
  have : q ≤ q - 1 := by
    calc q ≤ ((qceil q : Int) : ℚ) := le_qceil q
    _ ≤ ((z - 1 : Int) : ℚ) := by exact_mod_cast Int.le_sub_one_of_lt hc
    _ = (z : ℚ) - 1 := by push_cast; ring
    _ ≤ q - 1 := by linarith
  linarith

/-! ### Permutations stored as integer arrays -/

/-- A list of n integers holds a permutation of 0..n-1: every entry is in
range and entries are pairwise distinct.  (By finiteness every value in
0..n-1 then appears exactly once; see IsPermOfRange.count_eq_one.) -/
def IsPermOfRange (L : List Int) (n : Nat) : Prop :=
  L.length = n ∧
  (∀ j, j < n → 0 ≤ L.getD j 0 ∧ L.getD j 0 < (n : Int)) ∧
  (∀ j₁, j₁ < n → ∀ j₂, j₂ < n → L.getD j₁ 0 = L.getD j₂ 0 → j₁ = j₂)

instance (L : List Int) (n : Nat) : Decidable (IsPermOfRange L n) := by
  unfold IsPermOfRange
  infer_instance

theorem IsPermOfRange.nodup {L : List Int} {n : Nat} (h : IsPermOfRange L n) :
    L.Nodup := by
  obtain ⟨hlen, _, hinj⟩ := h
  rw [List.nodup_iff_injective_getElem]
  intro i j hij
  apply Fin.ext
  refine hinj i.1 (hlen ▸ i.2) j.1 (hlen ▸ j.2) ?_
  rw [getD_of_lt _ _ _ i.2, getD_of_lt _ _ _ j.2]
  exact hij

theorem IsPermOfRange.surj {L : List Int} {n : Nat} (h : IsPermOfRange L n)
    {v : Int} (h0 : 0 ≤ v) (hv : v < (n : Int)) :
    ∃ j, j < n ∧ L.getD j 0 = v := by
  obtain ⟨hlen, hrange, hinj⟩ := h
  have hn : 0 < n := by
    by_contra hc
    push_neg at hc
    interval_cases n
    omega
  let f : Fin n → Fin n := fun j =>
    ⟨(L.getD j.1 0).toNat, by
      have := hrange j.1 j.2
      omega⟩
  have hf : Function.Injective f := by
    intro a b hab
    have ha := hrange a.1 a.2
    have hb := hrange b.1 b.2
    apply Fin.ext
    refine hinj a.1 a.2 b.1 b.2 ?_
    have : (L.getD a.1 0).toNat = (L.getD b.1 0).toNat := congrArg Fin.val hab
    omega
  have hs : Function.Surjective f := Finite.injective_iff_surjective.mp hf
  obtain ⟨j, hj⟩ := hs ⟨v.toNat, by omega⟩
  refine ⟨j.1, j.2, ?_⟩
  have := hrange j.1 j.2
  have : (L.getD j.1 0).toNat = v.toNat := congrArg Fin.val hj
  omega

/-- In a permutation array of 0..n-1 every value of the range appears
exactly once. -/
theorem IsPermOfRange.count_eq_one {L : List Int} {n : Nat}
    (h : IsPermOfRange L n) {v : Int} (h0 : 0 ≤ v) (hv : v < (n : Int)) :
    L.count v = 1 := by
  obtain ⟨j, hj, hval⟩ := h.surj h0 hv
  have hjl : j < L.length := h.1 ▸ hj
  have hmem : v ∈ L := by
    rw [getD_of_lt _ _ _ hjl] at hval
    exact hval ▸ List.getElem_mem hjl
  exact List.count_eq_one_of_mem h.nodup hmem

/-! ### Generic facts about scatter loops (for-loops writing array slots) -/

theorem foldl_set_length (ks : List Nat) (p : Nat → Nat) (v : Nat → Int)
    (init : List Int) :
    (ks.foldl (fun R k => R.set (p k) (v k)) init).length = init.length := by
  induction ks generalizing init with
  | nil => rfl
  | cons a t ih => simpa using ih (init.set (p a) (v a))

theorem foldl_set_getD_of_not_written (ks : List Nat) (p : Nat → Nat)
    (v : Nat → Int) (init : List Int) (j : Nat)
    (h : ∀ k ∈ ks, p k ≠ j) :
    (ks.foldl (fun R k => R.set (p k) (v k)) init).getD j 0 = init.getD j 0 := by
  induction ks generalizing init with
  | nil => rfl
  | cons a t ih =>
    have ha : p a ≠ j := h a (List.mem_cons_self a t)
    have ht : ∀ k ∈ t, p k ≠ j := fun k hk => h k (List.mem_cons_of_mem a hk)
    rw [List.foldl_cons, ih (init.set (p a) (v a)) ht]
    simp [List.getD_eq_getElem?_getD, List.getElem?_set_ne ha]

theorem foldl_set_getD_of_written (ks : List Nat) (p : Nat → Nat)
    (v : Nat → Int) (init : List Int) (j k : Nat)
    (hk : k ∈ ks) (hpk : p k = j) (hj : j < init.length)
    (huniq : ∀ k' ∈ ks, p k' = j → k' = k) :
    (ks.foldl (fun R k => R.set (p k) (v k)) init).getD j 0 = v k := by
  induction ks generalizing init with
  | nil => cases hk
  | cons a t ih =>
    rw [List.foldl_cons]
    by_cases hkt : k ∈ t
    · exact ih (init.set (p a) (v a)) hkt (by simpa using hj)
        (fun k' hk' h' => huniq k' (List.mem_cons_of_mem _ hk') h')
    · have hak : a = k := by
        cases hk with
        | head => rfl
        | tail _ h => exact absurd h hkt
      have hnone : ∀ k' ∈ t, p k' ≠ j := fun k' hk' hpk' =>
        hkt ((huniq k' (List.mem_cons_of_mem _ hk') hpk') ▸ hk')
      rw [foldl_set_getD_of_not_written t p v _ j hnone, hak, hpk]
      simp [List.getD_eq_getElem?_getD, List.getElem?_set_self hj]

/-! ### umfpack_free_numeric.c

The Numeric object consists of 13 malloc'd blocks (11 always-present
pointers plus Rs and Upattern which may be null; UMF_free of a null pointer
is a no-op, so the code frees all 13 unconditionally).  The handle is
modelled as Option (Option NumericType): the outer layer is the
NumericHandle pointer, the inner layer the Numeric pointer it holds. -/

/-- Component blocks of a Numeric object, in the order umfpack_free_numeric.c
frees them (the final entry is the Numeric header itself). -/
inductive NComp where
  | d | rperm | cperm | lpos | lilen | lip | upos | uilen | uip
  | rs | upattern | memory | header
deriving DecidableEq, Repr

/-- Abstract Numeric object; its contents are irrelevant to freeing. -/
structure NumericType where
  valid : Int
deriving DecidableEq, Repr

/-- UMFPACK_free_numeric (umfpack_free_numeric.c, lines 17-56): returns the
final contents of the handle together with the list of blocks freed. -/
def UMFPACK_free_numeric (handle : Option (Option NumericType)) :
    Option (Option NumericType) × List NComp :=
  match handle with
  | none => (none, [])
  | some none => (some none, [])
  | some (some _) =>
      (some none,
       [NComp.d, NComp.rperm, NComp.cperm, NComp.lpos, NComp.lilen, NComp.lip,
        NComp.upos, NComp.uilen, NComp.uip, NComp.rs, NComp.upattern,
        NComp.memory, NComp.header])

/-! ### Configuration sanitization (umfpack_qsymbolic.c, lines 744-765 and
834-858) -/

/-- Lines 746-750: an ordering option outside the recognized range punts to
the default ordering. -/
def sanitize_ordering (opt : Int) : Int :=
  if opt < 0 ∨ UMFPACK_ORDERING_METIS_GUARD < opt then UMFPACK_DEFAULT_ORDERING
  else opt

/-- Lines 751-765: without a Quser, ordering "given" (or "user" without a
callback) downgrades to "none"; with a Quser the ordering is always
"given". -/
def resolve_ordering_with_user (opt : Int) (quser_present user_fn_present : Bool) :
    Int :=
  if quser_present = false then
    if opt = UMFPACK_ORDERING_GIVEN ∨
       (opt = UMFPACK_ORDERING_USER ∧ user_fn_present = false) then
      UMFPACK_ORDERING_NONE
    else opt
  else UMFPACK_ORDERING_GIVEN

/-- Lines 744-765 combined: the ordering option actually adopted. -/
def fix_ordering_option (opt : Int) (quser_present user_fn_present : Bool) : Int :=
  resolve_ordering_with_user (sanitize_ordering opt) quser_present user_fn_present

/-- Lines 834-840: a rectangular matrix forces the unsymmetric strategy. -/
def force_rectangular_strategy (strategy : Int) (n_row n_col : Int) : Int :=
  if n_row ≠ n_col then UMFPACK_STRATEGY_UNSYMMETRIC else strategy

/-- Lines 842-848: an unrecognized strategy (or the obsolete value) is
replaced by auto. -/
def sanitize_strategy (strategy : Int) : Int :=
  if strategy < UMFPACK_STRATEGY_AUTO ∨ UMFPACK_STRATEGY_SYMMETRIC < strategy ∨
     strategy = UMFPACK_STRATEGY_OBSOLETE then UMFPACK_STRATEGY_AUTO
  else strategy

/-- Lines 850-858: when the user provides Q, only the symmetric and
unsymmetric strategies are available. -/
def clamp_strategy_for_quser (strategy : Int) (quser_present : Bool) : Int :=
  if quser_present ∧ strategy ≠ UMFPACK_STRATEGY_SYMMETRIC then
    UMFPACK_STRATEGY_UNSYMMETRIC
  else strategy

/-- Lines 834-858 combined: the strategy adopted before singleton analysis. -/
def fix_strategy (strategy : Int) (n_row n_col : Int) (quser_present : Bool) : Int :=
  clamp_strategy_for_quser
    (sanitize_strategy (force_rectangular_strategy strategy n_row n_col))
    quser_present

/-! ### METIS_GUARD resolution (umfpack_qsymbolic.c, lines 1385-1427) -/

/-- Which code path the unsymmetric no-Quser ordering dispatch takes:
either the external ordering route (user_ordering or UMF_cholmod, followed
by UMF_analyze) or the UMF_colamd route. -/
inductive UnsymPath where
  | external_route
  | colamd_route
deriving DecidableEq, Repr

/-- Lines 1385-1416: resolve the METIS_GUARD ordering option on the
unsymmetric, no-Quser path.  The dense-degree cutoff macro
UMFPACK_DENSE_DEGREE_THRESHOLD lives in umfpack.h (not among the analysed
sources), so the computed threshold enters as the function parameter
dense_degree (applied to the dense_row factor drow and ncol2 exactly as the
source applies the macro). -/
def metis_guard_resolve (ordering_option : Int) (nrow2 ncol2 max_rdeg : Int)
    (drow : ℚ) (dense_degree : ℚ → Int → Int) : Int :=
  if ordering_option = UMFPACK_ORDERING_METIS_GUARD then
    if nrow2 = 0 ∨ ncol2 = 0 then
      UMFPACK_ORDERING_AMD
    else
      -- the source names the value dense_degree drow ncol2 "metis_guard"
      if dense_degree drow ncol2 < max_rdeg then UMFPACK_ORDERING_AMD
      else UMFPACK_ORDERING_METIS
  else ordering_option

/-- Lines 1422-1427: the dispatch between the external ordering route and
the UMF_colamd route (the latter is also taken whenever the pruned matrix
is empty). -/
def unsym_ordering_dispatch (opt nrow2 ncol2 : Int) : UnsymPath :=
  if (opt = UMFPACK_ORDERING_USER ∨ opt = UMFPACK_ORDERING_NONE ∨
      opt = UMFPACK_ORDERING_METIS ∨ opt = UMFPACK_ORDERING_CHOLMOD ∨
      opt = UMFPACK_ORDERING_BEST) ∧ 0 < nrow2 ∧ 0 < ncol2 then
    UnsymPath.external_route
  else UnsymPath.colamd_route

/-! ### prune_singletons (umfpack_qsymbolic.c, lines 478-576) -/

/-- Output of prune_singletons: the pruned matrix S in compressed-column
form plus the count of numerically nonzero diagonal entries of S. -/
structure PruneResult where
  Sp : List Int
  Si : List Int
  nzdiag : Int
deriving DecidableEq, Repr

/-- Nested test of lines 536-567 (real case): do_nzdiag (Ax non-null), the
entry lies on the diagonal of S (newrow == newcol), and the stored value is
not numerically zero. -/
def diag_nonzero_cond (n1 : Nat) (newcol : Int) (Ai : List Int)
    (Ax : Option (List ℚ)) (InvRperm1 : List Int) (p : Nat) : Bool :=
  match Ax with
  | none => false
  | some ax =>
      decide (InvRperm1.getD (Ai.getD p 0).toNat 0 - (n1 : Int) = newcol) &&
      decide (ax.getD p 0 ≠ 0)

/-- Inner loop body of prune_singletons (lines 525-571, real case): process
entry p of the current column; newcol = k - n1 is the new index of the
column being copied. -/
def prune_inner_step (n1 : Nat) (newcol : Int) (Ai : List Int)
    (Ax : Option (List ℚ)) (InvRperm1 : List Int) (st : PruneResult)
    (p : Nat) : PruneResult :=
  let row := Ai.getD p 0
  let newrow := InvRperm1.getD row.toNat 0 - (n1 : Int)
  if 0 ≤ newrow then
    { st with
      Si := st.Si ++ [newrow],
      nzdiag := st.nzdiag +
        (if diag_nonzero_cond n1 newcol Ai Ax InvRperm1 p then 1 else 0) }
  else st

/-- prune_singletons (lines 478-576): builds the submatrix
S = A (Cperm1 (n1+1:end), Rperm1 (n1+1:end)) in compressed-column form
(writing Si sequentially, which the source does through the counter pp, and
Sp sequentially for newcol = 0,1,...) and counts the numerically nonzero
diagonal entries of S.  With Ax null, do_nzdiag is false and the count
stays 0. -/
def prune_singletons (n1 n_col : Nat) (Ap Ai : List Int) (Ax : Option (List ℚ))
    (Cperm1 InvRperm1 : List Int) : PruneResult :=
  let outer := fun (st : PruneResult) (k : Nat) =>
    let oldcol := (Cperm1.getD k 0).toNat
    let newcol : Int := (k : Int) - (n1 : Int)
    let lo := (Ap.getD oldcol 0).toNat
    let hi := (Ap.getD (oldcol + 1) 0).toNat
    (List.range' lo (hi - lo)).foldl
      (prune_inner_step n1 newcol Ai Ax InvRperm1)
      { st with Sp := st.Sp ++ [(st.Si.length : Int)] }
  let st := (List.range' n1 (n_col - n1)).foldl outer ⟨[], [], 0⟩
  { st with Sp := st.Sp ++ [(st.Si.length : Int)] }

/-- Per-entry test of the claim's reading of nzdiag: the entry lies on the
diagonal of S structurally, and is numerically nonzero whenever values are
given. -/
def diag_claimed_cond (n1 : Nat) (newcol : Int) (Ai : List Int)
    (Ax : Option (List ℚ)) (InvRperm1 : List Int) (p : Nat) : Bool :=
  decide (InvRperm1.getD (Ai.getD p 0).toNat 0 - (n1 : Int) = newcol) &&
  (match Ax with
   | none => true
   | some ax => decide (ax.getD p 0 ≠ 0))

/-- Count of diagonal entries of the pruned matrix that are structurally
present and, when Ax is given, also numerically nonzero.  This definition
follows the claim text (the quantity the spec calls nzdiag), to be compared
with the value prune_singletons actually computes. -/
def nzdiag_claimed (n1 n_col : Nat) (Ap Ai : List Int) (Ax : Option (List ℚ))
    (Cperm1 InvRperm1 : List Int) : Int :=
  ((List.range' n1 (n_col - n1)).map (fun k =>
    let oldcol := (Cperm1.getD k 0).toNat
    let lo := (Ap.getD oldcol 0).toNat
    let hi := (Ap.getD (oldcol + 1) 0).toNat
    (((List.range' lo (hi - lo)).filter
      (diag_claimed_cond n1 ((k : Int) - (n1 : Int)) Ai Ax InvRperm1)).length :
      Int))).sum

theorem prune_inner_nzdiag (n1 : Nat) (newcol : Int) (Ai : List Int)
    (Ax : Option (List ℚ)) (InvRperm1 : List Int) (l : List Nat)
    (st : PruneResult) (hnc : 0 ≤ newcol) :
    ((l.foldl (prune_inner_step n1 newcol Ai Ax InvRperm1) st).nzdiag) =
      st.nzdiag +
        ((l.filter (diag_nonzero_cond n1 newcol Ai Ax InvRperm1)).length : Int) := by
  induction l generalizing st with
  | nil => simp
  | cons p t ih =>
    rw [List.foldl_cons, ih]
    have hstep : (prune_inner_step n1 newcol Ai Ax InvRperm1 st p).nzdiag =
        st.nzdiag +
          (if diag_nonzero_cond n1 newcol Ai Ax InvRperm1 p then 1 else 0) := by
      unfold prune_inner_step
      by_cases hge : (0:Int) ≤ InvRperm1.getD (Ai.getD p 0).toNat 0 - (n1:Int)
      · rw [if_pos hge]
      · rw [if_neg hge]
        have hcond : diag_nonzero_cond n1 newcol Ai Ax InvRperm1 p = false := by
          rcases Ax with _ | ax
          · rfl
          · unfold diag_nonzero_cond
            have hne : ¬ (InvRperm1.getD (Ai.getD p 0).toNat 0 - (n1:Int) =
                newcol) := by omega
            rw [decide_eq_false hne]
            exact Bool.false_and _
        rw [hcond]
        simp
    rw [hstep, List.filter_cons]
    by_cases hc : diag_nonzero_cond n1 newcol Ai Ax InvRperm1 p = true
    · rw [if_pos hc, hc]
      simp only [if_true, List.length_cons]
      push_cast
      ring
    · simp only [Bool.not_eq_true] at hc
      rw [hc]
      simp only [Bool.false_eq_true, if_false]
      ring

theorem diag_cond_none (n1 : Nat) (newcol : Int) (Ai : List Int)
    (InvRperm1 : List Int) :
    diag_nonzero_cond n1 newcol Ai none InvRperm1 = fun _ => false := rfl

theorem diag_cond_some (n1 : Nat) (newcol : Int) (Ai : List Int)
    (ax : List ℚ) (InvRperm1 : List Int) :
    diag_nonzero_cond n1 newcol Ai (some ax) InvRperm1 =
    diag_claimed_cond n1 newcol Ai (some ax) InvRperm1 := rfl

/-- The nzdiag value of prune_singletons: 0 when Ax is null, and otherwise
exactly the structurally-present, numerically-nonzero diagonal count. -/
theorem prune_nzdiag_characterization (n1 n_col : Nat) (Ap Ai : List Int)
    (Ax : Option (List ℚ)) (Cperm1 InvRperm1 : List Int) :
    (prune_singletons n1 n_col Ap Ai Ax Cperm1 InvRperm1).nzdiag =
      (match Ax with
       | none => 0
       | some _ => nzdiag_claimed n1 n_col Ap Ai Ax Cperm1 InvRperm1) := by
  unfold prune_singletons nzdiag_claimed
  have main : ∀ (l : List Nat) (st : PruneResult),
      (∀ k ∈ l, n1 ≤ k) →
      ((l.foldl (fun (st : PruneResult) (k : Nat) =>
        (List.range' ((Ap.getD (Cperm1.getD k 0).toNat 0).toNat)
            ((Ap.getD ((Cperm1.getD k 0).toNat + 1) 0).toNat -
             (Ap.getD (Cperm1.getD k 0).toNat 0).toNat)).foldl
          (prune_inner_step n1 ((k : Int) - (n1 : Int)) Ai Ax InvRperm1)
          { st with Sp := st.Sp ++ [(st.Si.length : Int)] }) st).nzdiag) =
      st.nzdiag + ((l.map (fun k =>
        (((List.range' ((Ap.getD (Cperm1.getD k 0).toNat 0).toNat)
            ((Ap.getD ((Cperm1.getD k 0).toNat + 1) 0).toNat -
             (Ap.getD (Cperm1.getD k 0).toNat 0).toNat)).filter
          (diag_nonzero_cond n1 ((k : Int) - (n1 : Int)) Ai Ax InvRperm1)).length :
          Int))).sum) := by
    intro l
    induction l with
    | nil => intro st _; simp
    | cons k t ih =>
      intro st hmem
      rw [List.foldl_cons, ih _ (fun k' hk' => hmem k' (List.mem_cons_of_mem _ hk'))]
      rw [prune_inner_nzdiag]
      · simp only [List.map_cons, List.sum_cons]
        ring
      · have := hmem k (List.mem_cons_self k t)
        omega
  have hbound : ∀ k ∈ List.range' n1 (n_col - n1), n1 ≤ k := by
    intro k hk
    exact (List.mem_range'_1.mp hk).1
  rcases Ax with _ | ax
  · rw [main _ _ hbound]
    simp [diag_cond_none]
  · rw [main _ _ hbound]
    simp [diag_cond_some]

/-! ### Strategy pipeline (S1-S3) -/

/-- Lines 1123-1131: when the singleton analysis reports an asymmetric (or
rectangular) pruned matrix, the unsymmetric strategy is forced regardless
of the requested strategy. -/
def strategy_after_singletons (strategy : Int) (is_sym : Bool) : Int :=
  if is_sym = false then UMFPACK_STRATEGY_UNSYMMETRIC else strategy

/-- Lines 1226-1249: resolve an auto strategy from the symmetry score
(sym, threshold tsym) and the diagonal count (nzdiag, threshold tnzd,
interior size n2). -/
def strategy_auto_select (strategy : Int) (sym tsym : ℚ) (nzdiag : Int)
    (tnzd : ℚ) (n2 : Int) : Int :=
  if strategy = UMFPACK_STRATEGY_AUTO then
    if tsym ≤ sym ∧ tnzd * (n2 : ℚ) ≤ (nzdiag : ℚ) then
      UMFPACK_STRATEGY_SYMMETRIC
    else UMFPACK_STRATEGY_UNSYMMETRIC
  else strategy

/-- Composition of the strategy decisions of stages S1-S3 (lines 834-858,
1123-1131, 1226-1249). -/
def chosen_strategy (requested : Int) (n_row n_col : Int) (quser_present : Bool)
    (is_sym : Bool) (sym tsym : ℚ) (nzdiag : Int) (tnzd : ℚ) (n2 : Int) : Int :=
  strategy_auto_select
    (strategy_after_singletons (fix_strategy requested n_row n_col quser_present)
      is_sym)
    sym tsym nzdiag tnzd n2

/-! ### Chain construction (umfpack_qsymbolic.c, lines 2208-2270) -/

/-- One chain of the front tree: its start index, its fronts in order, and
the Chain_maxrows / Chain_maxcols values stored for it. -/
structure ChainRec where
  chain_start : Nat
  fronts : List Nat
  maxrows : Int
  maxcols : Int
deriving DecidableEq, Repr

/-- Loop state of the chain-construction pass. -/
structure ChainBuildState where
  chains : List ChainRec
  next_start : Nat
  cur : List Nat
  maxrows : Int
  maxcols : Int
  maxnrows : Int
  maxncols : Int
deriving DecidableEq, Repr

/-- One step (front i) of the chain-construction loop (lines 2219-2267).
The source's fpiv is computed only for debug output and is omitted; the
dmaxfrsize statistic is Info-only and omitted as well. -/
def build_chains_step (Fr_nrows Fr_ncols Front_parent : List Int)
    (s : ChainBuildState) (i : Nat) : ChainBuildState :=
  let fallrows := Fr_nrows.getD i 0
  let fallcols := Fr_ncols.getD i 0
  let parent := Front_parent.getD i 0
  let maxrows := max s.maxrows fallrows
  let maxcols := max s.maxcols fallcols
  if parent ≠ (i : Int) + 1 then
    -- end of a chain: make sure maxrows is an odd number, store the chain
    let maxrows := if maxrows % 2 = 0 then maxrows + 1 else maxrows
    { chains := s.chains ++ [⟨s.next_start, s.cur ++ [i], maxrows, maxcols⟩],
      next_start := i + 1, cur := [], maxrows := 1, maxcols := 1,
      maxnrows := max s.maxnrows maxrows, maxncols := max s.maxncols maxcols }
  else
    { s with cur := s.cur ++ [i], maxrows := maxrows, maxcols := maxcols }

/-- Lines 2208-2270: the chain decomposition of the front tree together
with the per-chain maximum row and column counts (Chain_start,
Chain_maxrows, Chain_maxcols) and the global maxima. -/
def build_chains (Fr_nrows Fr_ncols Front_parent : List Int) (nfr : Nat) :
    ChainBuildState :=
  (List.range nfr).foldl (build_chains_step Fr_nrows Fr_ncols Front_parent)
    ⟨[], 0, [], 1, 1, 1, 1⟩

theorem build_chains_step_odd (Fr_nrows Fr_ncols Front_parent : List Int)
    (l : List Nat) (s : ChainBuildState)
    (hs : ∀ rec ∈ s.chains, Odd rec.maxrows) :
    ∀ rec ∈ (l.foldl (build_chains_step Fr_nrows Fr_ncols Front_parent) s).chains,
      Odd rec.maxrows := by
  induction l generalizing s with
  | nil => exact hs
  | cons i t ih =>
    rw [List.foldl_cons]
    apply ih
    simp only [build_chains_step]
    split_ifs with hp hodd
    · intro rec hrec
      simp only [List.mem_append, List.mem_singleton] at hrec
      rcases hrec with hrec | hrec
      · exact hs rec hrec
      · subst hrec
        rw [Int.odd_iff]
        simp only
        omega
    · intro rec hrec
      simp only [List.mem_append, List.mem_singleton] at hrec
      rcases hrec with hrec | hrec
      · exact hs rec hrec
      · subst hrec
        rw [Int.odd_iff]
        simp only
        omega
    · exact hs

/-! ### Resource simulation (umfpack_qsymbolic.c, lines 2348-2603)

The double-precision bookkeeping of the source is modelled with exact
rationals.  The storage-size macros (UNITS, DUNITS, GET_ELEMENT_SIZE,
DGET_ELEMENT_SIZE, TUPLES) live in umf_internal.h, which is not among the
analysed sources; they enter as an abstract UnitsModel whose fields stand
for the macro applied to the one type the call site uses.  Modelled from
the spec: the spec describes Unit and Entry as implementation-defined
storage granules, so only nonnegativity of the sizes is assumed. -/

structure UnitsModel where
  uIntPtr : Int → Int      -- UNITS (Int *, n)
  uEntryPtr : Int → Int    -- UNITS (Entry *, n)
  uInt : Int → Int         -- UNITS (Int, n)
  uEntry : Int → Int       -- UNITS (Entry, n)
  uTuple : Int → Int       -- UNITS (Tuple, n)
  geSize : Int → Int → Int -- GET_ELEMENT_SIZE (r, c)
  tuples : Int → Int       -- TUPLES (t)
  duIntPtr : Int → ℚ       -- DUNITS (Int *, n)
  duEntryPtr : Int → ℚ     -- DUNITS (Entry *, n)
  duInt : ℚ → ℚ            -- DUNITS (Int, x)
  duEntry : ℚ → ℚ          -- DUNITS (Entry, x)
  duTuple : Int → ℚ        -- DUNITS (Tuple, n)
  dgeSize : ℚ → ℚ → ℚ      -- DGET_ELEMENT_SIZE (r, c)
  div_flops : ℚ            -- DIV_FLOPS
  multsub_flops : ℚ        -- MULTSUB_FLOPS

/-- ELEMENT_SIZE macro (line 53): DGET_ELEMENT_SIZE (r,c) + 1 +
(r + c) * UNITS (Tuple, 1). -/
def element_size (M : UnitsModel) (r c : ℚ) : ℚ :=
  M.dgeSize r c + 1 + (r + c) * ((M.uTuple 1 : Int) : ℚ)

/-- Nonnegativity of the storage-size model on nonnegative arguments
(TUPLES is bounded below by a positive constant in the source, hence
nonnegative everywhere). -/
def ModelOk (M : UnitsModel) : Prop :=
  (∀ n : Int, 0 ≤ n → 0 ≤ M.uIntPtr n) ∧
  (∀ n : Int, 0 ≤ n → 0 ≤ M.uEntryPtr n) ∧
  (∀ n : Int, 0 ≤ n → 0 ≤ M.uInt n) ∧
  (∀ n : Int, 0 ≤ n → 0 ≤ M.uEntry n) ∧
  (∀ n : Int, 0 ≤ n → 0 ≤ M.uTuple n) ∧
  (∀ r c : Int, 0 ≤ r → 0 ≤ c → 0 ≤ M.geSize r c) ∧
  (∀ t : Int, 0 ≤ M.tuples t) ∧
  (∀ n : Int, 0 ≤ n → 0 ≤ M.duIntPtr n) ∧
  (∀ n : Int, 0 ≤ n → 0 ≤ M.duEntryPtr n) ∧
  (∀ x : ℚ, 0 ≤ x → 0 ≤ M.duInt x) ∧
  (∀ x : ℚ, 0 ≤ x → 0 ≤ M.duEntry x) ∧
  (∀ n : Int, 0 ≤ n → 0 ≤ M.duTuple n) ∧
  (∀ r c : ℚ, 0 ≤ r → 0 ≤ c → 0 ≤ M.dgeSize r c)

/-- The front-tree data the simulation reads (SW arrays Fr_nrows, Fr_ncols
and the Symbolic arrays Front_npivcol, Front_parent, which at this point
hold equal values by lines 2027-2037). -/
structure FrontData where
  npivcol : List Int
  nrows : List Int
  ncols : List Int
  parent : List Int
  nfr : Nat
deriving Repr

/-- Inputs of the resource simulation: the dimensions, the permuted Cdeg
and Rdeg (lines 2325-2346), the dense-row data and the front tree. -/
structure SimInputs where
  n_row : Nat
  n_col : Nat
  n1 : Nat
  nempty_col : Nat
  nempty_row : Nat
  n_inner : Nat
  nb : Int
  Cdeg : List Int
  Rdeg : List Int
  dense_row_threshold : Int
  esize_present : Bool
  Esize : List Int
  fronts : FrontData
deriving Repr

structure SimState where
  head_usage : Int
  tail_usage : Int
  dhead : ℚ
  dtail : ℚ
  dmax : ℚ
  dlnz : ℚ
  dunz : ℚ
  flops : ℚ
  link : List Int
deriving Repr

structure SimResult where
  num_mem_init_usage : Int
  num_mem_size_est : ℚ
  num_mem_usage_est : ℚ
  lunz_bound : ℚ
  dlnz : ℚ
  dunz : ℚ
  flops : ℚ
deriving Repr

/-- Lines 2355-2368: unit-diagonal counts, head marker, tail markers and
the Rpi/Rpx workspace charge. -/
def sim_init (M : UnitsModel) (inp : SimInputs) : SimState :=
  { head_usage := 1
    tail_usage := 2 +
      (M.uIntPtr (inp.n_row + 1) + M.uEntryPtr (inp.n_row + 1) + 2)
    dhead := 1
    dtail := 2 +
      (M.duIntPtr (inp.n_row + 1) + M.duEntryPtr (inp.n_row + 1) + 2)
    dmax := 0
    dlnz := (inp.n_inner : ℚ)
    dunz := (inp.n_inner : ℚ)
    flops := 0
    link := List.replicate inp.fronts.nfr EMPTY }

/-- Lines 2372-2385: LU factors of the singleton pivots, charged at the
head. -/
def sim_singletons (M : UnitsModel) (inp : SimInputs) (s : SimState) :
    SimState :=
  (List.range inp.n1).foldl (fun s k =>
    let lnz := inp.Cdeg.getD k 0 - 1
    let unz := inp.Rdeg.getD k 0 - 1
    { s with
      dlnz := s.dlnz + (lnz : ℚ)
      dunz := s.dunz + (unz : ℚ)
      head_usage := s.head_usage +
        (M.uInt lnz + M.uEntry lnz + M.uInt unz + M.uEntry unz)
      dhead := s.dhead + (M.duInt (lnz : ℚ) + M.duEntry (lnz : ℚ) +
        M.duInt (unz : ℚ) + M.duEntry (unz : ℚ)) }) s

/-- Lines 2388-2399: initial column elements at the tail. -/
def sim_col_elements (M : UnitsModel) (inp : SimInputs) (s : SimState) :
    SimState :=
  (List.range' inp.n1 (inp.n_col - inp.nempty_col - inp.n1)).foldl (fun s k =>
    let esize := if inp.esize_present then inp.Esize.getD (k - inp.n1) 0
      else inp.Cdeg.getD k 0
    if 0 < esize then
      { s with
        tail_usage := s.tail_usage + (M.geSize esize 1 + 1)
        dtail := s.dtail + (M.dgeSize (esize : ℚ) 1 + 1) }
    else s) s

/-- Lines 2401-2416: dense-row elements (only when Esize exists); the
source charges the integer GET_ELEMENT_SIZE in both counters here. -/
def sim_dense_rows (M : UnitsModel) (inp : SimInputs) (s : SimState) :
    SimState :=
  if inp.esize_present then
    (List.range' inp.n1 (inp.n_row - inp.nempty_row - inp.n1)).foldl
      (fun s k =>
        let rdeg := inp.Rdeg.getD k 0
        if inp.dense_row_threshold < rdeg then
          { s with
            tail_usage := s.tail_usage + (M.geSize 1 rdeg + 1)
            dtail := s.dtail + (((M.geSize 1 rdeg : Int) : ℚ) + 1) }
        else s) s
  else s

/-- Lines 2421-2462: tuple lists for rows and columns. -/
def sim_tuples (M : UnitsModel) (inp : SimInputs) (s : SimState) : SimState :=
  if inp.esize_present then
    let s1 := (List.range' inp.n1 (inp.n_row - inp.n1)).foldl (fun s row =>
      let rdeg := inp.Rdeg.getD row 0
      let tlen := if inp.dense_row_threshold < rdeg then 1 else rdeg
      { s with
        tail_usage := s.tail_usage + (1 + M.uTuple (M.tuples tlen))
        dtail := s.dtail + (1 + M.duTuple (M.tuples tlen)) }) s
    let s2 := (List.range' inp.n1 (inp.n_col - inp.nempty_col - inp.n1)).foldl
      (fun s col =>
        let esize := inp.Esize.getD (col - inp.n1) 0
        let tlen := (if 0 < esize then 1 else 0) +
          (inp.Cdeg.getD col 0 - esize)
        { s with
          tail_usage := s.tail_usage + (1 + M.uTuple (M.tuples tlen))
          dtail := s.dtail + (1 + M.duTuple (M.tuples tlen)) }) s1
    (List.range' (inp.n_col - inp.nempty_col) inp.nempty_col).foldl
      (fun s _ =>
        { s with
          tail_usage := s.tail_usage + (1 + M.uTuple (M.tuples 0))
          dtail := s.dtail + (1 + M.duTuple (M.tuples 0)) }) s2
  else
    let s1 := (List.range' inp.n1 (inp.n_row - inp.n1)).foldl (fun s row =>
      let tlen := inp.Rdeg.getD row 0
      { s with
        tail_usage := s.tail_usage + (1 + M.uTuple (M.tuples tlen))
        dtail := s.dtail + (1 + M.duTuple (M.tuples tlen)) }) s
    (List.range' inp.n1 (inp.n_col - inp.n1)).foldl (fun s _ =>
      { s with
        tail_usage := s.tail_usage + (1 + M.uTuple (M.tuples 1))
        dtail := s.dtail + (1 + M.duTuple (M.tuples 1)) }) s1

/-- The state at line 2464, whose head plus tail is recorded as
num_mem_init_usage. -/
def sim_setup (M : UnitsModel) (inp : SimInputs) : SimState :=
  sim_tuples M inp (sim_dense_rows M inp (sim_col_elements M inp
    (sim_singletons M inp (sim_init M inp))))

/-- The child traversal of lines 2526-2537:
for (child = Link [i] ; child != EMPTY ; child = Link [child]).  The fuel
argument bounds the walk; nfr + 1 steps always suffice because the child
lists the loop builds are strictly decreasing. -/
def followLink (link : List Int) : Nat → Int → List Nat
  | 0, _ => []
  | fuel + 1, h =>
      if h < 0 then []
      else h.toNat :: followLink link fuel (link.getD h.toNat 0)

/-- Lines 2531-2535 and 2560: the element size contributed by front
child: cp pivots are removed, leaving a cr-by-cc contribution block. -/
def elemsize (M : UnitsModel) (fd : FrontData) (child : Nat) : ℚ :=
  let cp := min (fd.npivcol.getD child 0) (fd.nrows.getD child 0)
  element_size M (((fd.nrows.getD child 0 : Int) : ℚ) - ((cp : Int) : ℚ))
    (((fd.ncols.getD child 0 : Int) : ℚ) - ((cp : Int) : ℚ))

/-- Lines 2512-2570: process front i within a chain: assemble the child
elements, count flops and the L and U contributions, create the new
element when the front has a parent, and track the peak usage. -/
def sim_front (M : UnitsModel) (fd : FrontData) (s : SimState) (i : Nat) :
    SimState :=
  let fpivcol := fd.npivcol.getD i 0
  let fallrows := fd.nrows.getD i 0
  let fallcols := fd.ncols.getD i 0
  let parent := fd.parent.getD i 0
  let fpiv := min fpivcol fallrows
  let f : ℚ := ((fpiv : Int) : ℚ)
  let r : ℚ := ((fallrows : Int) : ℚ) - f
  let c : ℚ := ((fallcols : Int) : ℚ) - f
  let children := followLink s.link (fd.nfr + 1) (s.link.getD i 0)
  let assembled := (children.map (elemsize M fd)).sum
  let dlf := (f * f - f) / 2 + f * r
  let duf := (f * f - f) / 2 + f * c
  let s := { s with
    dtail := s.dtail - assembled
    flops := s.flops + M.div_flops * (f * r + (f - 1) * f / 2) +
      M.multsub_flops * (f * r * c + (r + c) * (f - 1) * f / 2 +
        (f - 1) * f * (2 * f - 1) / 6)
    dlnz := s.dlnz + dlf
    dunz := s.dunz + duf
    dhead := s.dhead + M.duEntry (dlf + duf) + M.duInt (r + c + f) }
  let s := if parent ≠ EMPTY then
    { s with
      dtail := s.dtail + element_size M r c
      link := aset (aset s.link (i : Int) (aget s.link parent)) parent
        (i : Int) }
  else s
  { s with dmax := max s.dmax (s.dhead + s.dtail) }

/-- Lines 2502-2508: the frontal working array size of a chain:
LU is nb-by-nb, L is dr-by-nb, U is nb-by-dc, C is dr-by-dc. -/
def chain_fsize (nb : Int) (ch : ChainRec) : ℚ :=
  let dr : ℚ := ((ch.maxrows : Int) : ℚ)
  let dc : ℚ := ((ch.maxcols : Int) : ℚ)
  ((nb : Int) : ℚ) * ((nb : Int) : ℚ) + dr * ((nb : Int) : ℚ) +
    ((nb : Int) : ℚ) * dc + dr * dc

/-- Lines 2495-2574: one chain: allocate the frontal working array,
process the fronts, free the working array. -/
def sim_chain (M : UnitsModel) (nb : Int) (fd : FrontData) (s : SimState)
    (ch : ChainRec) : SimState :=
  let fsize := chain_fsize nb ch
  let s := { s with dtail := s.dtail + M.duEntry fsize }
  let s := { s with dmax := max s.dmax (s.dhead + s.dtail) }
  let s := ch.fronts.foldl (sim_front M fd) s
  { s with dtail := s.dtail - M.duEntry fsize }

/-- Lines 2464-2491: record the initial usage, take the initial peak,
release the Rpi/Rpx workspace and clear the link lists and the flop
count before the chain loop. -/
def sim_release (M : UnitsModel) (inp : SimInputs) : SimState :=
  let s0 := sim_setup M inp
  { s0 with
    tail_usage := s0.tail_usage -
      (M.uIntPtr (inp.n_row + 1) + M.uEntryPtr (inp.n_row + 1))
    dtail := s0.dtail -
      (M.duIntPtr (inp.n_row + 1) + M.duEntryPtr (inp.n_row + 1))
    dmax := max (((s0.head_usage + s0.tail_usage : Int)) : ℚ)
      ((qceil (s0.dhead + s0.dtail) : Int) : ℚ)
    link := List.replicate inp.fronts.nfr EMPTY
    flops := 0 }

/-- The state after the chain loop of lines 2495-2574. -/
def sim_after (M : UnitsModel) (inp : SimInputs) : SimState :=
  ((build_chains inp.fronts.nrows inp.fronts.ncols inp.fronts.parent
    inp.fronts.nfr).chains).foldl (sim_chain M inp.nb inp.fronts)
    (sim_release M inp)

/-- Lines 2348-2603: the full resource simulation (S7), with the
num_mem_init_usage record at line 2464 and the final estimates at lines
2576-2580. -/
def simulate (M : UnitsModel) (inp : SimInputs) : SimResult :=
  { num_mem_init_usage :=
      (sim_setup M inp).head_usage + (sim_setup M inp).tail_usage
    num_mem_size_est := ((qceil (sim_after M inp).dhead : Int) : ℚ)
    num_mem_usage_est := ((qceil (sim_after M inp).dmax : Int) : ℚ)
    lunz_bound := (sim_after M inp).dlnz + (sim_after M inp).dunz -
      (inp.n_inner : ℚ)
    dlnz := (sim_after M inp).dlnz
    dunz := (sim_after M inp).dunz
    flops := (sim_after M inp).flops }

/-! ### Accumulator bookkeeping of the simulation -/

theorem foldl_proj_const {α β γ : Type} (proj : α → β) (f : α → γ → α)
    (hf : ∀ s a, proj (f s a) = proj s) :
    ∀ (l : List γ) (s : α), proj (l.foldl f s) = proj s := by
  intro l
  induction l with
  | nil => intro s; rfl
  | cons a t ih => intro s; rw [List.foldl_cons, ih, hf]

theorem foldl_proj_add {α γ : Type} (proj : α → ℚ) (f : α → γ → α)
    (g : γ → ℚ) (hf : ∀ s a, proj (f s a) = proj s + g a) :
    ∀ (l : List γ) (s : α), proj (l.foldl f s) = proj s + (l.map g).sum := by
  intro l
  induction l with
  | nil => intro s; simp
  | cons a t ih =>
      intro s
      rw [List.foldl_cons, ih, hf, List.map_cons, List.sum_cons, add_assoc]

/-- The nz-in-L contribution of front i (line 2547), as a function of the
front data alone. -/
def front_dlf (fd : FrontData) (i : Nat) : ℚ :=
  let f : ℚ := ((min (fd.npivcol.getD i 0) (fd.nrows.getD i 0) : Int) : ℚ)
  (f * f - f) / 2 + f * (((fd.nrows.getD i 0 : Int) : ℚ) - f)

/-- The nz-in-U contribution of front i (line 2548). -/
def front_duf (fd : FrontData) (i : Nat) : ℚ :=
  let f : ℚ := ((min (fd.npivcol.getD i 0) (fd.nrows.getD i 0) : Int) : ℚ)
  (f * f - f) / 2 + f * (((fd.ncols.getD i 0 : Int) : ℚ) - f)

theorem sim_front_dlnz (M : UnitsModel) (fd : FrontData) (s : SimState)
    (i : Nat) : (sim_front M fd s i).dlnz = s.dlnz + front_dlf fd i := by
  dsimp only [sim_front, front_dlf]
  split_ifs <;> rfl

theorem sim_front_dunz (M : UnitsModel) (fd : FrontData) (s : SimState)
    (i : Nat) : (sim_front M fd s i).dunz = s.dunz + front_duf fd i := by
  dsimp only [sim_front, front_duf]
  split_ifs <;> rfl

theorem sim_chain_dlnz (M : UnitsModel) (nb : Int) (fd : FrontData)
    (s : SimState) (ch : ChainRec) :
    (sim_chain M nb fd s ch).dlnz =
      s.dlnz + (ch.fronts.map (front_dlf fd)).sum := by
  dsimp only [sim_chain]
  rw [foldl_proj_add SimState.dlnz (sim_front M fd) (front_dlf fd)
    (sim_front_dlnz M fd)]

theorem sim_chain_dunz (M : UnitsModel) (nb : Int) (fd : FrontData)
    (s : SimState) (ch : ChainRec) :
    (sim_chain M nb fd s ch).dunz =
      s.dunz + (ch.fronts.map (front_duf fd)).sum := by
  dsimp only [sim_chain]
  rw [foldl_proj_add SimState.dunz (sim_front M fd) (front_duf fd)
    (sim_front_dunz M fd)]

theorem sim_col_elements_dlnz (M : UnitsModel) (inp : SimInputs)
    (s : SimState) : (sim_col_elements M inp s).dlnz = s.dlnz := by
  unfold sim_col_elements
  exact foldl_proj_const SimState.dlnz _
    (fun s k => by dsimp only; split_ifs <;> rfl) _ s

theorem sim_col_elements_dunz (M : UnitsModel) (inp : SimInputs)
    (s : SimState) : (sim_col_elements M inp s).dunz = s.dunz := by
  unfold sim_col_elements
  exact foldl_proj_const SimState.dunz _
    (fun s k => by dsimp only; split_ifs <;> rfl) _ s

theorem sim_dense_rows_dlnz (M : UnitsModel) (inp : SimInputs)
    (s : SimState) : (sim_dense_rows M inp s).dlnz = s.dlnz := by
  unfold sim_dense_rows
  split_ifs
  · exact foldl_proj_const SimState.dlnz _
      (fun s k => by dsimp only; split_ifs <;> rfl) _ s
  · rfl

theorem sim_dense_rows_dunz (M : UnitsModel) (inp : SimInputs)
    (s : SimState) : (sim_dense_rows M inp s).dunz = s.dunz := by
  unfold sim_dense_rows
  split_ifs
  · exact foldl_proj_const SimState.dunz _
      (fun s k => by dsimp only; split_ifs <;> rfl) _ s
  · rfl

theorem sim_tuples_dlnz (M : UnitsModel) (inp : SimInputs) (s : SimState) :
    (sim_tuples M inp s).dlnz = s.dlnz := by
  unfold sim_tuples
  split_ifs
  · dsimp only
    refine Eq.trans (foldl_proj_const SimState.dlnz _ (by intro s a; rfl) _ _) ?_
    refine Eq.trans (foldl_proj_const SimState.dlnz _ (by intro s a; rfl) _ _) ?_
    exact foldl_proj_const SimState.dlnz _ (by intro s a; rfl) _ _
  · dsimp only
    refine Eq.trans (foldl_proj_const SimState.dlnz _ (by intro s a; rfl) _ _) ?_
    exact foldl_proj_const SimState.dlnz _ (by intro s a; rfl) _ _

theorem sim_tuples_dunz (M : UnitsModel) (inp : SimInputs) (s : SimState) :
    (sim_tuples M inp s).dunz = s.dunz := by
  unfold sim_tuples
  split_ifs
  · dsimp only
    refine Eq.trans (foldl_proj_const SimState.dunz _ (by intro s a; rfl) _ _) ?_
    refine Eq.trans (foldl_proj_const SimState.dunz _ (by intro s a; rfl) _ _) ?_
    exact foldl_proj_const SimState.dunz _ (by intro s a; rfl) _ _
  · dsimp only
    refine Eq.trans (foldl_proj_const SimState.dunz _ (by intro s a; rfl) _ _) ?_
    exact foldl_proj_const SimState.dunz _ (by intro s a; rfl) _ _

theorem sim_setup_dlnz (M : UnitsModel) (inp : SimInputs) :
    (sim_setup M inp).dlnz = (inp.n_inner : ℚ) +
      ((List.range inp.n1).map
        (fun k => ((inp.Cdeg.getD k 0 - 1 : Int) : ℚ))).sum := by
  unfold sim_setup
  rw [sim_tuples_dlnz, sim_dense_rows_dlnz, sim_col_elements_dlnz]
  unfold sim_singletons
  rw [foldl_proj_add SimState.dlnz _
    (fun k => ((inp.Cdeg.getD k 0 - 1 : Int) : ℚ)) (fun s k => rfl)]
  rfl

theorem sim_setup_dunz (M : UnitsModel) (inp : SimInputs) :
    (sim_setup M inp).dunz = (inp.n_inner : ℚ) +
      ((List.range inp.n1).map
        (fun k => ((inp.Rdeg.getD k 0 - 1 : Int) : ℚ))).sum := by
  unfold sim_setup
  rw [sim_tuples_dunz, sim_dense_rows_dunz, sim_col_elements_dunz]
  unfold sim_singletons
  rw [foldl_proj_add SimState.dunz _
    (fun k => ((inp.Rdeg.getD k 0 - 1 : Int) : ℚ)) (fun s k => rfl)]
  rfl

/-! ### The chains cover every front exactly once -/

theorem build_chains_join_aux (Fr_nrows Fr_ncols Front_parent : List Int) :
    ∀ (l : List Nat) (s : ChainBuildState),
      (((l.foldl (build_chains_step Fr_nrows Fr_ncols Front_parent) s).chains.map
          ChainRec.fronts).flatten ++
        (l.foldl (build_chains_step Fr_nrows Fr_ncols Front_parent) s).cur) =
      ((s.chains.map ChainRec.fronts).flatten ++ s.cur) ++ l := by
  intro l
  induction l with
  | nil => intro s; simp
  | cons i t ih =>
      intro s
      rw [List.foldl_cons, ih]
      dsimp only [build_chains_step]
      split_ifs
      all_goals simp [List.append_assoc]

/-- After the whole chain loop the running chain is empty, because the
last front cannot have front nfr as its parent. -/
theorem build_chains_cur_nil (Fr_nrows Fr_ncols Front_parent : List Int)
    (nfr : Nat)
    (hlast : nfr = 0 ∨
      Front_parent.getD (nfr - 1) 0 ≠ ((nfr - 1 : Nat) : Int) + 1) :
    (build_chains Fr_nrows Fr_ncols Front_parent nfr).cur = [] := by
  rcases hlast with h0 | hne
  · subst h0; rfl
  · rcases Nat.eq_zero_or_pos nfr with h0 | hpos
    · subst h0; rfl
    · obtain ⟨m, hm⟩ : ∃ m, nfr = m + 1 := ⟨nfr - 1, by omega⟩
      subst hm
      unfold build_chains
      rw [List.range_succ, List.foldl_append, List.foldl_cons,
        List.foldl_nil]
      dsimp only [build_chains_step]
      rw [if_pos (by simpa using hne)]

/-- Coverage: concatenating the front lists of all chains yields exactly
the fronts 0..nfr-1 in order. -/
theorem build_chains_join (Fr_nrows Fr_ncols Front_parent : List Int)
    (nfr : Nat)
    (hlast : nfr = 0 ∨
      Front_parent.getD (nfr - 1) 0 ≠ ((nfr - 1 : Nat) : Int) + 1) :
    ((build_chains Fr_nrows Fr_ncols Front_parent nfr).chains.map
      ChainRec.fronts).flatten = List.range nfr := by
  have h := build_chains_join_aux Fr_nrows Fr_ncols Front_parent
    (List.range nfr) ⟨[], 0, [], 1, 1, 1, 1⟩
  have hb : List.foldl (build_chains_step Fr_nrows Fr_ncols Front_parent)
      ⟨[], 0, [], 1, 1, 1, 1⟩ (List.range nfr) =
      build_chains Fr_nrows Fr_ncols Front_parent nfr := rfl
  rw [hb, build_chains_cur_nil Fr_nrows Fr_ncols Front_parent nfr hlast] at h
  simpa using h

theorem sum_over_flatten (g : Nat → ℚ) :
    ∀ L : List (List Nat),
      ((L.flatten).map g).sum = (L.map (fun l => (l.map g).sum)).sum := by
  intro L
  induction L with
  | nil => simp
  | cons l t ih =>
      rw [List.flatten_cons, List.map_append, List.sum_append, ih,
        List.map_cons, List.sum_cons]

/-! ### Link-list correctness and the tail-usage ledger -/

theorem aset_length (l : List Int) (i : Int) (v : Int) :
    (aset l i v).length = l.length := by
  unfold aset
  split_ifs
  · rfl
  · exact List.length_set l i.toNat v

theorem getD_aset_ne (l : List Int) (i v : Int) (j : Nat)
    (h : (j : Int) ≠ i) : (aset l i v).getD j 0 = l.getD j 0 := by
  unfold aset
  split_ifs with h0
  · rfl
  · have : i.toNat ≠ j := by omega
    simp [List.getD_eq_getElem?_getD, List.getElem?_set_ne this]

theorem getD_aset_self (l : List Int) (i v : Int) (h0 : 0 ≤ i)
    (hlen : i.toNat < l.length) : (aset l i v).getD i.toNat 0 = v := by
  unfold aset
  rw [if_neg (by omega)]
  simp [List.getD_eq_getElem?_getD, List.getElem?_set_self hlen]

/-- The walk through the link array from head h visits exactly the nodes
of L, in order, and ends at a negative marker. -/
def WalkEq (link : List Int) : Int → List Nat → Prop
  | h, [] => h < 0
  | h, j :: L => h = (j : Int) ∧ WalkEq link (link.getD j 0) L

theorem walkEq_followLink (link : List Int) :
    ∀ (L : List Nat) (h : Int) (fuel : Nat), WalkEq link h L →
      L.length < fuel → followLink link fuel h = L := by
  intro L
  induction L with
  | nil =>
      intro h fuel hw hf
      cases fuel with
      | zero => omega
      | succ f =>
          unfold WalkEq at hw
          simp [followLink, hw]
  | cons j t ih =>
      intro h fuel hw hf
      obtain ⟨hj, hrest⟩ := hw
      cases fuel with
      | zero => omega
      | succ f =>
          simp only [followLink]
          rw [if_neg (by omega)]
          subst hj
          rw [Int.toNat_natCast]
          rw [ih (link.getD j 0) f hrest (by simpa using Nat.lt_of_succ_lt_succ hf)]

theorem walkEq_congr (link link' : List Int) :
    ∀ (L : List Nat) (h : Int), WalkEq link h L →
      (∀ j ∈ L, link'.getD j 0 = link.getD j 0) → WalkEq link' h L := by
  intro L
  induction L with
  | nil => intro h hw _; exact hw
  | cons j t ih =>
      intro h hw hsame
      obtain ⟨hj, hrest⟩ := hw
      refine ⟨hj, ?_⟩
      rw [hsame j (List.mem_cons_self j t)]
      exact ih (link.getD j 0) hrest
        (fun j' hj' => hsame j' (List.mem_cons_of_mem j hj'))

/-- The children of front m that exist after the first t fronts have been
processed: the fronts j < t whose parent is m, most recent first. -/
def childlist (fd : FrontData) (m t : Nat) : List Nat :=
  ((List.range t).filter (fun j => fd.parent.getD j 0 = (m : Int))).reverse

theorem childlist_mem_lt (fd : FrontData) (m t : Nat) :
    ∀ j ∈ childlist fd m t, j < t := by
  intro j hj
  unfold childlist at hj
  rw [List.mem_reverse] at hj
  exact List.mem_range.mp (List.mem_of_mem_filter hj)

theorem childlist_length_le (fd : FrontData) (m t : Nat) :
    (childlist fd m t).length ≤ t := by
  unfold childlist
  rw [List.length_reverse]
  calc ((List.range t).filter _).length ≤ (List.range t).length :=
        List.length_filter_le _ _
    _ = t := List.length_range t

theorem childlist_zero (fd : FrontData) (m : Nat) :
    childlist fd m 0 = [] := rfl

/-- Growing t by one appends front t to the child list of its parent and
leaves every other child list unchanged. -/
theorem childlist_succ (fd : FrontData) (m t : Nat) :
    childlist fd m (t + 1) =
      (if fd.parent.getD t 0 = (m : Int) then [t] else []) ++
        childlist fd m t := by
  unfold childlist
  rw [List.range_succ, List.filter_append, List.reverse_append]
  by_cases h : fd.parent.getD t 0 = (m : Int)
  · rw [if_pos h, List.filter_cons, if_pos (by exact decide_eq_true h),
      List.filter_nil]
    rfl
  · rw [if_neg h, List.filter_cons,
      if_neg (by simp only [decide_eq_true_eq]; exact h), List.filter_nil]
    rfl

/-- Sum of the element sizes of the elements still outstanding after the
first t fronts have been processed: those created for a front j < t whose
parent front has not yet been reached. -/
def outstanding (M : UnitsModel) (fd : FrontData) (t : Nat) : ℚ :=
  (((List.range t).filter
    (fun j => (t : Int) ≤ fd.parent.getD j 0)).map (elemsize M fd)).sum

theorem elemsize_nonneg (M : UnitsModel) (fd : FrontData) (hM : ModelOk M)
    (j : Nat) (hj : fd.npivcol.getD j 0 ≤ fd.ncols.getD j 0) :
    0 ≤ elemsize M fd j := by
  simp only [elemsize, element_size]
  have hcr : (0 : ℚ) ≤ ((fd.nrows.getD j 0 : Int) : ℚ) -
      ((min (fd.npivcol.getD j 0) (fd.nrows.getD j 0) : Int) : ℚ) := by
    rw [sub_nonneg]
    exact_mod_cast min_le_right _ _
  have hcc : (0 : ℚ) ≤ ((fd.ncols.getD j 0 : Int) : ℚ) -
      ((min (fd.npivcol.getD j 0) (fd.nrows.getD j 0) : Int) : ℚ) := by
    rw [sub_nonneg]
    exact_mod_cast le_trans (min_le_left _ _) hj
  have ht : (0 : ℚ) ≤ ((M.uTuple 1 : Int) : ℚ) := by
    exact_mod_cast hM.2.2.2.2.1 1 (by omega)
  have hg := hM.2.2.2.2.2.2.2.2.2.2.2.2 _ _ hcr hcc
  have hprod := mul_nonneg (add_nonneg hcr hcc) ht
  linarith

theorem outstanding_nonneg (M : UnitsModel) (fd : FrontData)
    (hM : ModelOk M)
    (hpc : ∀ j, j < fd.nfr → fd.npivcol.getD j 0 ≤ fd.ncols.getD j 0)
    (t : Nat) (ht : t ≤ fd.nfr) : 0 ≤ outstanding M fd t := by
  unfold outstanding
  apply List.sum_nonneg
  intro x hx
  rw [List.mem_map] at hx
  obtain ⟨j, hj, rfl⟩ := hx
  have hjt : j < t := List.mem_range.mp (List.mem_of_mem_filter hj)
  exact elemsize_nonneg M fd hM j (hpc j (by omega))

theorem outstanding_zero (M : UnitsModel) (fd : FrontData) :
    outstanding M fd 0 = 0 := rfl

/-- Splitting the outstanding sum at threshold c into the elements whose
parent is exactly c and those whose parent is later. -/
theorem split_filter_sum (M : UnitsModel) (fd : FrontData) (c : Int) :
    ∀ l : List Nat,
      ((l.filter (fun j => c ≤ fd.parent.getD j 0)).map
        (elemsize M fd)).sum =
      ((l.filter (fun j => fd.parent.getD j 0 = c)).map
        (elemsize M fd)).sum +
      ((l.filter (fun j => c + 1 ≤ fd.parent.getD j 0)).map
        (elemsize M fd)).sum := by
  intro l
  induction l with
  | nil => simp
  | cons a t ih =>
      rw [List.filter_cons, List.filter_cons, List.filter_cons]
      by_cases h1 : fd.parent.getD a 0 = c
      · rw [if_pos (by simp only [decide_eq_true_eq]; omega),
          if_pos (by simp only [decide_eq_true_eq]; omega),
          if_neg (by simp only [decide_eq_true_eq]; omega),
          List.map_cons, List.sum_cons, List.map_cons, List.sum_cons, ih]
        ring
      · by_cases h2 : c + 1 ≤ fd.parent.getD a 0
        · rw [if_pos (by simp only [decide_eq_true_eq]; omega),
            if_neg (by simp only [decide_eq_true_eq]; omega),
            if_pos (by simp only [decide_eq_true_eq]; omega),
            List.map_cons, List.sum_cons, List.map_cons, List.sum_cons, ih]
          ring
        · rw [if_neg (by simp only [decide_eq_true_eq]; omega),
            if_neg (by simp only [decide_eq_true_eq]; omega),
            if_neg (by simp only [decide_eq_true_eq]; omega)]
          exact ih

/-- The outstanding ledger after front t is processed: the children of
front t drop out, and front t itself is added when its parent lies
strictly later. -/
theorem outstanding_succ (M : UnitsModel) (fd : FrontData) (t : Nat) :
    outstanding M fd (t + 1) =
      (((List.range t).filter
        (fun j => (t : Int) + 1 ≤ fd.parent.getD j 0)).map
          (elemsize M fd)).sum +
      (if (t : Int) + 1 ≤ fd.parent.getD t 0 then elemsize M fd t else 0) := by
  unfold outstanding
  rw [List.range_succ, List.filter_append, List.map_append, List.sum_append]
  have h1 : (List.range t).filter
      (fun j => ((t + 1 : Nat) : Int) ≤ fd.parent.getD j 0) =
      (List.range t).filter (fun j => (t : Int) + 1 ≤ fd.parent.getD j 0) := by
    apply List.filter_congr
    intro j hj
    simp only [decide_eq_decide]
    push_cast
    omega
  have h2 : ((([t] : List Nat).filter
      (fun j => ((t + 1 : Nat) : Int) ≤ fd.parent.getD j 0)).map
        (elemsize M fd)).sum =
      (if (t : Int) + 1 ≤ fd.parent.getD t 0 then elemsize M fd t else 0) := by
    by_cases h : (t : Int) + 1 ≤ fd.parent.getD t 0
    · rw [List.filter_cons,
        if_pos (by simp only [decide_eq_true_eq]; push_cast; omega),
        List.filter_nil, if_pos h, List.map_cons, List.map_nil,
        List.sum_cons, List.sum_nil, add_zero]
    · rw [List.filter_cons,
        if_neg (by simp only [decide_eq_true_eq]; push_cast; omega),
        List.filter_nil, if_neg h, List.map_nil, List.sum_nil]
  rw [h1, h2]

/-- Decomposing the outstanding ledger before front t is processed into
the children of t and the elements bound for later fronts. -/
theorem outstanding_decompose (M : UnitsModel) (fd : FrontData) (t : Nat) :
    outstanding M fd t =
      ((childlist fd t t).map (elemsize M fd)).sum +
      (((List.range t).filter
        (fun j => (t : Int) + 1 ≤ fd.parent.getD j 0)).map
          (elemsize M fd)).sum := by
  unfold outstanding childlist
  rw [List.map_reverse, List.sum_reverse]
  exact split_filter_sum M fd (t : Int) (List.range t)

/-- The link-list invariant: after the first t fronts are processed, the
walk from Link[m] visits exactly the children of m created so far. -/
def LinkInv (fd : FrontData) (t : Nat) (link : List Int) : Prop :=
  link.length = fd.nfr ∧
  ∀ m, t ≤ m → m < fd.nfr →
    WalkEq link (link.getD m 0) (childlist fd m t)

/-- The simulation-state invariant carried through the chain loop:
the tail usage is the base plus the chain working array plus the
outstanding elements, the link lists are correct, and the peak dominates
the head usage. -/
def SimInv (M : UnitsModel) (fd : FrontData) (base extra : ℚ) (t : Nat)
    (s : SimState) : Prop :=
  s.dtail = base + extra + outstanding M fd t ∧
  LinkInv fd t s.link ∧
  s.dhead ≤ s.dmax

/-- Characterization of one sim_front step on the fields the ledger
tracks, given the value of the child walk. -/
theorem sim_front_char (M : UnitsModel) (fd : FrontData) (s : SimState)
    (t : Nat) (L : List Nat)
    (hL : followLink s.link (fd.nfr + 1) (s.link.getD t 0) = L) :
    (sim_front M fd s t).dtail =
      (if fd.parent.getD t 0 ≠ EMPTY
        then s.dtail - (L.map (elemsize M fd)).sum + elemsize M fd t
        else s.dtail - (L.map (elemsize M fd)).sum) ∧
    (sim_front M fd s t).link =
      (if fd.parent.getD t 0 ≠ EMPTY
        then aset (aset s.link (t : Int) (aget s.link (fd.parent.getD t 0)))
          (fd.parent.getD t 0) (t : Int)
        else s.link) ∧
    (sim_front M fd s t).dmax =
      max s.dmax ((sim_front M fd s t).dhead + (sim_front M fd s t).dtail) := by
  dsimp only [sim_front]
  rw [hL]
  split_ifs with h
  · exact ⟨rfl, rfl, rfl⟩
  · exact ⟨rfl, rfl, rfl⟩

/-- One front preserves the ledger invariant and never lowers the peak. -/
theorem sim_front_step (M : UnitsModel) (fd : FrontData) (hM : ModelOk M)
    (hwf : ∀ i, i < fd.nfr → fd.parent.getD i 0 = EMPTY ∨
      ((i : Int) < fd.parent.getD i 0 ∧ fd.parent.getD i 0 < (fd.nfr : Int)))
    (hpc : ∀ j, j < fd.nfr → fd.npivcol.getD j 0 ≤ fd.ncols.getD j 0)
    (base extra : ℚ) (hbe : 0 ≤ base + extra)
    (t : Nat) (ht : t < fd.nfr) (s : SimState)
    (hinv : SimInv M fd base extra t s) :
    SimInv M fd base extra (t + 1) (sim_front M fd s t) ∧
    s.dmax ≤ (sim_front M fd s t).dmax := by
  obtain ⟨hdt, ⟨hlen, hwalk⟩, hdm⟩ := hinv
  have hw := hwalk t le_rfl ht
  have hch : followLink s.link (fd.nfr + 1) (s.link.getD t 0) =
      childlist fd t t :=
    walkEq_followLink s.link _ _ _ hw
      (by have := childlist_length_le fd t t; omega)
  obtain ⟨hdt', hlink', hdmax'⟩ := sim_front_char M fd s t _ hch
  have hdtnew : (sim_front M fd s t).dtail =
      base + extra + outstanding M fd (t + 1) := by
    rw [hdt', hdt, outstanding_succ M fd t]
    rcases hwf t ht with hp | ⟨hp1, hp2⟩
    · rw [if_neg (not_not_intro hp), if_neg (by unfold EMPTY at hp; omega),
        outstanding_decompose M fd t]
      ring
    · rw [if_pos (by unfold EMPTY; omega), if_pos (by omega),
        outstanding_decompose M fd t]
      ring
  have hlinknew : LinkInv fd (t + 1) (sim_front M fd s t).link := by
    rcases hwf t ht with hp | ⟨hp1, hp2⟩
    · rw [hlink']
      rw [if_neg (not_not_intro hp)]
      refine ⟨hlen, fun m hm1 hm2 => ?_⟩
      rw [childlist_succ, if_neg (by rw [hp]; unfold EMPTY; omega),
        List.nil_append]
      exact hwalk m (by omega) hm2
    · rw [hlink', if_pos (by unfold EMPTY; omega)]
      set p := fd.parent.getD t 0 with hpdef
      have hp0 : 0 ≤ p := by omega
      have hpcast : ((p.toNat : Nat) : Int) = p := Int.toNat_of_nonneg hp0
      have hptn : t < p.toNat := by omega
      have hptn2 : p.toNat < fd.nfr := by omega
      constructor
      · rw [aset_length, aset_length]
        exact hlen
      · intro m hm1 hm2
        by_cases hmp : m = p.toNat
        · subst hmp
          have hgd : (aset (aset s.link (t : Int) (aget s.link p)) p
              (t : Int)).getD p.toNat 0 = (t : Int) := by
            have : ((aset s.link (t : Int) (aget s.link p)).length) =
                s.link.length := aset_length _ _ _
            have hlt : p.toNat <
                (aset s.link (t : Int) (aget s.link p)).length := by
              rw [this, hlen]; exact hptn2
            have := getD_aset_self (aset s.link (t : Int) (aget s.link p))
              p (t : Int) hp0 hlt
            exact this
          rw [hgd, childlist_succ, if_pos (by rw [hpcast]),
            List.singleton_append]
          refine ⟨rfl, ?_⟩
          have hgd2 : (aset (aset s.link (t : Int) (aget s.link p)) p
              (t : Int)).getD t 0 = s.link.getD p.toNat 0 := by
            rw [getD_aset_ne _ _ _ _ (by omega)]
            have hlt : ((t : Int)).toNat < s.link.length := by
              rw [hlen]; simpa using ht
            have := getD_aset_self s.link (t : Int) (aget s.link p)
              (by omega) hlt
            rw [Int.toNat_natCast] at this
            rw [this]
            unfold aget
            rw [if_neg (by omega)]
          rw [hgd2]
          refine walkEq_congr s.link _ _ _ (hwalk p.toNat (by omega) hptn2)
            (fun j hj => ?_)
          have hjt : j < t := childlist_mem_lt fd p.toNat t j hj
          rw [getD_aset_ne _ _ _ _ (by omega),
            getD_aset_ne _ _ _ _ (by omega)]
        · have hgd : (aset (aset s.link (t : Int) (aget s.link p)) p
              (t : Int)).getD m 0 = s.link.getD m 0 := by
            rw [getD_aset_ne _ _ _ _ (by omega),
              getD_aset_ne _ _ _ _ (by omega)]
          have hne : ¬ (fd.parent.getD t 0 = (m : Int)) := by
            rw [← hpdef]; omega
          rw [hgd, childlist_succ, if_neg hne, List.nil_append]
          refine walkEq_congr s.link _ _ _ (hwalk m (by omega) hm2)
            (fun j hj => ?_)
          have hjt : j < t := childlist_mem_lt fd m t j hj
          rw [getD_aset_ne _ _ _ _ (by omega),
            getD_aset_ne _ _ _ _ (by omega)]
  have hout1 : 0 ≤ outstanding M fd (t + 1) :=
    outstanding_nonneg M fd hM hpc (t + 1) (by omega)
  have hmax1 : s.dmax ≤ (sim_front M fd s t).dmax := by
    rw [hdmax']
    exact le_max_left _ _
  refine ⟨⟨hdtnew, hlinknew, ?_⟩, hmax1⟩
  rw [hdmax']
  refine le_trans ?_ (le_max_right _ _)
  rw [hdtnew]
  linarith

theorem foldl_proj_mono {α γ β : Type} [Preorder β] (proj : α → β)
    (f : α → γ → α) :
    ∀ (l : List γ) (s : α), (∀ s' a, a ∈ l → proj s' ≤ proj (f s' a)) →
      proj s ≤ proj (l.foldl f s) := by
  intro l
  induction l with
  | nil => intro s h; exact le_rfl
  | cons a t ih =>
      intro s h
      rw [List.foldl_cons]
      exact le_trans (h s a (List.mem_cons_self a t))
        (ih (f s a) (fun s' b hb => h s' b (List.mem_cons_of_mem a hb)))

/-- Splitting a contiguous range: a decomposition l1 ++ l2 of range' t m
forces l1 and l2 to be contiguous ranges themselves. -/
theorem append_eq_range' : ∀ (l₁ l₂ : List Nat) (t m : Nat),
    l₁ ++ l₂ = List.range' t m →
    l₁ = List.range' t l₁.length ∧
    l₂ = List.range' (t + l₁.length) (m - l₁.length) := by
  intro l₁
  induction l₁ with
  | nil =>
      intro l₂ t m h
      rw [List.nil_append] at h
      exact ⟨rfl, by simpa using h⟩
  | cons a l₁ ih =>
      intro l₂ t m h
      cases m with
      | zero => simp at h
      | succ k =>
          rw [List.range'_succ, List.cons_append, List.cons.injEq] at h
          obtain ⟨ha, htail⟩ := h
          obtain ⟨h1, h2⟩ := ih l₂ (t + 1) k htail
          refine ⟨?_, ?_⟩
          · rw [List.length_cons, List.range'_succ, ha]
            rw [← h1]
          · rw [h2, List.length_cons]
            congr 1
            · omega
            · omega

/-- Every stored chain has maxrows and maxcols at least one (the running
values start at one and only grow). -/
theorem build_chains_ge_one_aux (Fr_nrows Fr_ncols Front_parent : List Int) :
    ∀ (l : List Nat) (s : ChainBuildState),
      1 ≤ s.maxrows → 1 ≤ s.maxcols →
      (∀ rec ∈ s.chains, 1 ≤ rec.maxrows ∧ 1 ≤ rec.maxcols) →
      (1 ≤ (l.foldl (build_chains_step Fr_nrows Fr_ncols Front_parent) s).maxrows ∧
       1 ≤ (l.foldl (build_chains_step Fr_nrows Fr_ncols Front_parent) s).maxcols ∧
       ∀ rec ∈ (l.foldl (build_chains_step Fr_nrows Fr_ncols Front_parent) s).chains,
         1 ≤ rec.maxrows ∧ 1 ≤ rec.maxcols) := by
  intro l
  induction l with
  | nil => intro s h1 h2 h3; exact ⟨h1, h2, h3⟩
  | cons i t ih =>
      intro s h1 h2 h3
      rw [List.foldl_cons]
      dsimp only [build_chains_step]
      split_ifs with hp ho
      · refine ih _ (by dsimp only; omega) (by dsimp only; omega) ?_
        intro rec hrec
        rw [List.mem_append, List.mem_singleton] at hrec
        rcases hrec with hrec | hrec
        · exact h3 rec hrec
        · subst hrec
          constructor
          · show 1 ≤ max s.maxrows (Fr_nrows.getD i 0) + 1
            have := le_max_left s.maxrows (Fr_nrows.getD i 0)
            omega
          · show 1 ≤ max s.maxcols (Fr_ncols.getD i 0)
            have := le_max_left s.maxcols (Fr_ncols.getD i 0)
            omega
      · refine ih _ (by dsimp only; omega) (by dsimp only; omega) ?_
        intro rec hrec
        rw [List.mem_append, List.mem_singleton] at hrec
        rcases hrec with hrec | hrec
        · exact h3 rec hrec
        · subst hrec
          constructor
          · show 1 ≤ max s.maxrows (Fr_nrows.getD i 0)
            have := le_max_left s.maxrows (Fr_nrows.getD i 0)
            omega
          · show 1 ≤ max s.maxcols (Fr_ncols.getD i 0)
            have := le_max_left s.maxcols (Fr_ncols.getD i 0)
            omega
      · refine ih _ ?_ ?_ h3
        · show 1 ≤ max s.maxrows (Fr_nrows.getD i 0)
          have := le_max_left s.maxrows (Fr_nrows.getD i 0)
          omega
        · show 1 ≤ max s.maxcols (Fr_ncols.getD i 0)
          have := le_max_left s.maxcols (Fr_ncols.getD i 0)
          omega

theorem build_chains_ge_one (Fr_nrows Fr_ncols Front_parent : List Int)
    (nfr : Nat) :
    ∀ rec ∈ (build_chains Fr_nrows Fr_ncols Front_parent nfr).chains,
      1 ≤ rec.maxrows ∧ 1 ≤ rec.maxcols :=
  (build_chains_ge_one_aux Fr_nrows Fr_ncols Front_parent
    (List.range nfr) ⟨[], 0, [], 1, 1, 1, 1⟩ (by norm_num) (by norm_num)
    (by intro rec h; simp at h)).2.2

/-- Folding sim_front over a contiguous block of fronts preserves the
ledger invariant. -/
theorem sim_fronts_fold (M : UnitsModel) (fd : FrontData) (hM : ModelOk M)
    (hwf : ∀ i, i < fd.nfr → fd.parent.getD i 0 = EMPTY ∨
      ((i : Int) < fd.parent.getD i 0 ∧ fd.parent.getD i 0 < (fd.nfr : Int)))
    (hpc : ∀ j, j < fd.nfr → fd.npivcol.getD j 0 ≤ fd.ncols.getD j 0)
    (base extra : ℚ) (hbe : 0 ≤ base + extra) :
    ∀ (len t : Nat) (s : SimState), t + len ≤ fd.nfr →
      SimInv M fd base extra t s →
      SimInv M fd base extra (t + len)
        (List.foldl (sim_front M fd) s (List.range' t len)) ∧
      s.dmax ≤ (List.foldl (sim_front M fd) s (List.range' t len)).dmax := by
  intro len
  induction len with
  | zero => intro t s h hinv; exact ⟨hinv, le_rfl⟩
  | succ n ih =>
      intro t s h hinv
      have hstep := sim_front_step M fd hM hwf hpc base extra hbe t
        (by omega) s hinv
      rw [List.range'_succ, List.foldl_cons]
      have hrec := ih (t + 1) (sim_front M fd s t) (by omega) hstep.1
      have heq : t + 1 + n = t + (n + 1) := by omega
      rw [heq] at hrec
      exact ⟨hrec.1, le_trans hstep.2 hrec.2⟩

/-- Projection equations for one chain step. -/
theorem sim_chain_char (M : UnitsModel) (nb : Int) (fd : FrontData)
    (s : SimState) (ch : ChainRec) :
    (sim_chain M nb fd s ch).dtail =
      (ch.fronts.foldl (sim_front M fd)
        { s with
          dtail := s.dtail + M.duEntry (chain_fsize nb ch)
          dmax := max s.dmax
            (s.dhead + (s.dtail + M.duEntry (chain_fsize nb ch))) }).dtail -
        M.duEntry (chain_fsize nb ch) ∧
    (sim_chain M nb fd s ch).link =
      (ch.fronts.foldl (sim_front M fd)
        { s with
          dtail := s.dtail + M.duEntry (chain_fsize nb ch)
          dmax := max s.dmax
            (s.dhead + (s.dtail + M.duEntry (chain_fsize nb ch))) }).link ∧
    (sim_chain M nb fd s ch).dhead =
      (ch.fronts.foldl (sim_front M fd)
        { s with
          dtail := s.dtail + M.duEntry (chain_fsize nb ch)
          dmax := max s.dmax
            (s.dhead + (s.dtail + M.duEntry (chain_fsize nb ch))) }).dhead ∧
    (sim_chain M nb fd s ch).dmax =
      (ch.fronts.foldl (sim_front M fd)
        { s with
          dtail := s.dtail + M.duEntry (chain_fsize nb ch)
          dmax := max s.dmax
            (s.dhead + (s.dtail + M.duEntry (chain_fsize nb ch))) }).dmax :=
  ⟨rfl, rfl, rfl, rfl⟩

/-- One chain preserves the ledger invariant (with no working array
outstanding on either side) and never lowers the peak. -/
theorem sim_chain_step (M : UnitsModel) (nb : Int) (fd : FrontData)
    (hM : ModelOk M)
    (hwf : ∀ i, i < fd.nfr → fd.parent.getD i 0 = EMPTY ∨
      ((i : Int) < fd.parent.getD i 0 ∧ fd.parent.getD i 0 < (fd.nfr : Int)))
    (hpc : ∀ j, j < fd.nfr → fd.npivcol.getD j 0 ≤ fd.ncols.getD j 0)
    (hnb : 0 ≤ nb) (base : ℚ) (hb : 0 ≤ base)
    (ch : ChainRec) (hmr : 1 ≤ ch.maxrows) (hmc : 1 ≤ ch.maxcols)
    (t len : Nat) (hfr : ch.fronts = List.range' t len)
    (hlen : t + len ≤ fd.nfr)
    (s : SimState) (hinv : SimInv M fd base 0 t s) :
    SimInv M fd base 0 (t + len) (sim_chain M nb fd s ch) ∧
    s.dmax ≤ (sim_chain M nb fd s ch).dmax := by
  obtain ⟨hdt, hli, hdm⟩ := hinv
  have hE : 0 ≤ M.duEntry (chain_fsize nb ch) := by
    apply hM.2.2.2.2.2.2.2.2.2.2.1
    simp only [chain_fsize]
    have c1 : (0 : ℚ) ≤ ((nb : Int) : ℚ) := by exact_mod_cast hnb
    have c2 : (1 : ℚ) ≤ ((ch.maxrows : Int) : ℚ) := by exact_mod_cast hmr
    have c3 : (1 : ℚ) ≤ ((ch.maxcols : Int) : ℚ) := by exact_mod_cast hmc
    nlinarith
  have hinv2 : SimInv M fd base (M.duEntry (chain_fsize nb ch)) t
      { s with
        dtail := s.dtail + M.duEntry (chain_fsize nb ch)
        dmax := max s.dmax
          (s.dhead + (s.dtail + M.duEntry (chain_fsize nb ch))) } := by
    refine ⟨?_, hli, ?_⟩
    · show s.dtail + M.duEntry (chain_fsize nb ch) = _
      rw [hdt]
      ring
    · exact le_trans hdm (le_max_left _ _)
  have hfold := sim_fronts_fold M fd hM hwf hpc base
    (M.duEntry (chain_fsize nb ch)) (by linarith) len t _ hlen hinv2
  obtain ⟨hc1, hc2, hc3, hc4⟩ := sim_chain_char M nb fd s ch
  rw [hfr] at hc1 hc2 hc3 hc4
  obtain ⟨⟨hfdt, hfli, hfhd⟩, hfmax⟩ := hfold
  refine ⟨⟨?_, ?_, ?_⟩, ?_⟩
  · rw [hc1, hfdt]
    ring
  · rw [hc2]
    exact hfli
  · rw [hc3, hc4]
    exact hfhd
  · rw [hc4]
    exact le_trans (le_trans (le_max_left _ _) hfmax) le_rfl

/-- Folding over a list of chains that together cover a contiguous block
of fronts preserves the ledger invariant. -/
theorem sim_chains_fold (M : UnitsModel) (nb : Int) (fd : FrontData)
    (hM : ModelOk M)
    (hwf : ∀ i, i < fd.nfr → fd.parent.getD i 0 = EMPTY ∨
      ((i : Int) < fd.parent.getD i 0 ∧ fd.parent.getD i 0 < (fd.nfr : Int)))
    (hpc : ∀ j, j < fd.nfr → fd.npivcol.getD j 0 ≤ fd.ncols.getD j 0)
    (hnb : 0 ≤ nb) :
    ∀ (chs : List ChainRec) (t m : Nat) (s : SimState),
      (∀ ch ∈ chs, 1 ≤ ch.maxrows ∧ 1 ≤ ch.maxcols) →
      (chs.map ChainRec.fronts).flatten = List.range' t m →
      t + m ≤ fd.nfr →
      ∀ base : ℚ, 0 ≤ base → SimInv M fd base 0 t s →
      SimInv M fd base 0 (t + m) (chs.foldl (sim_chain M nb fd) s) ∧
      s.dmax ≤ (chs.foldl (sim_chain M nb fd) s).dmax := by
  intro chs
  induction chs with
  | nil =>
      intro t m s hge hcov hle base hb hinv
      have hm : m = 0 := by
        have := congrArg List.length hcov
        simpa using this.symm
      subst hm
      exact ⟨hinv, le_rfl⟩
  | cons ch chs ih =>
      intro t m s hge hcov hle base hb hinv
      rw [List.map_cons, List.flatten_cons] at hcov
      obtain ⟨hfr, hrest⟩ := append_eq_range' _ _ _ _ hcov
      have hlenle : ch.fronts.length ≤ m := by
        have := congrArg List.length hcov
        rw [List.length_append, List.length_range'] at this
        omega
      rw [List.foldl_cons]
      have hstep := sim_chain_step M nb fd hM hwf hpc hnb base hb ch
        (hge ch (List.mem_cons_self ch chs)).1
        (hge ch (List.mem_cons_self ch chs)).2
        t ch.fronts.length hfr (by omega) s hinv
      have hrec := ih (t + ch.fronts.length) (m - ch.fronts.length)
        (sim_chain M nb fd s ch)
        (fun c hc => hge c (List.mem_cons_of_mem ch hc))
        hrest (by omega) base hb hstep.1
      have heq : t + ch.fronts.length + (m - ch.fronts.length) = t + m := by
        omega
      rw [heq] at hrec
      exact ⟨hrec.1, le_trans hstep.2 hrec.2⟩

/-- A well-formed front tree never makes the last front a child of the
(nonexistent) front nfr, so the chain loop always closes its last chain. -/
theorem parent_last_ne (fd : FrontData)
    (hwf : ∀ i, i < fd.nfr → fd.parent.getD i 0 = EMPTY ∨
      ((i : Int) < fd.parent.getD i 0 ∧ fd.parent.getD i 0 < (fd.nfr : Int))) :
    fd.nfr = 0 ∨ fd.parent.getD (fd.nfr - 1) 0 ≠
      ((fd.nfr - 1 : Nat) : Int) + 1 := by
  rcases Nat.eq_zero_or_pos fd.nfr with h0 | hpos
  · exact Or.inl h0
  · right
    intro hc
    rcases hwf (fd.nfr - 1) (by omega) with h | ⟨h1, h2⟩
    · unfold EMPTY at h
      omega
    · omega

theorem linkInv_replicate (fd : FrontData) :
    LinkInv fd 0 (List.replicate fd.nfr EMPTY) := by
  constructor
  · exact List.length_replicate _ _
  · intro m hm0 hm
    rw [childlist_zero]
    show (List.replicate fd.nfr EMPTY).getD m 0 < 0
    have h : (List.replicate fd.nfr EMPTY).getD m 0 = EMPTY := by
      rw [List.getD_eq_getElem?_getD, List.getElem?_replicate, if_pos hm]
      rfl
    rw [h]
    unfold EMPTY
    omega

/-- Head and dhead only grow in the singleton loop; tail and dtail are
untouched there. -/
theorem sim_singletons_bounds (M : UnitsModel) (inp : SimInputs)
    (hM : ModelOk M)
    (hd1 : ∀ k, k < inp.n1 → 1 ≤ inp.Cdeg.getD k 0 ∧ 1 ≤ inp.Rdeg.getD k 0)
    (s : SimState) :
    s.head_usage ≤ (sim_singletons M inp s).head_usage ∧
    (sim_singletons M inp s).tail_usage = s.tail_usage ∧
    s.dhead ≤ (sim_singletons M inp s).dhead ∧
    (sim_singletons M inp s).dtail = s.dtail := by
  refine ⟨?_, ?_, ?_, ?_⟩
  · unfold sim_singletons
    apply foldl_proj_mono SimState.head_usage
    intro s' k hk
    have hk1 := List.mem_range.mp hk
    dsimp only
    have h1 := (hd1 k hk1).1
    have h2 := (hd1 k hk1).2
    have e1 := hM.2.2.1 (inp.Cdeg.getD k 0 - 1) (by omega)
    have e2 := hM.2.2.2.1 (inp.Cdeg.getD k 0 - 1) (by omega)
    have e3 := hM.2.2.1 (inp.Rdeg.getD k 0 - 1) (by omega)
    have e4 := hM.2.2.2.1 (inp.Rdeg.getD k 0 - 1) (by omega)
    omega
  · unfold sim_singletons
    exact foldl_proj_const SimState.tail_usage _ (by intro s' a; rfl) _ _
  · unfold sim_singletons
    apply foldl_proj_mono SimState.dhead
    intro s' k hk
    have hk1 := List.mem_range.mp hk
    dsimp only
    have h1 := (hd1 k hk1).1
    have h2 := (hd1 k hk1).2
    have e1 := hM.2.2.2.2.2.2.2.2.2.1
      ((inp.Cdeg.getD k 0 - 1 : Int) : ℚ) (by exact_mod_cast by omega)
    have e2 := hM.2.2.2.2.2.2.2.2.2.2.1
      ((inp.Cdeg.getD k 0 - 1 : Int) : ℚ) (by exact_mod_cast by omega)
    have e3 := hM.2.2.2.2.2.2.2.2.2.1
      ((inp.Rdeg.getD k 0 - 1 : Int) : ℚ) (by exact_mod_cast by omega)
    have e4 := hM.2.2.2.2.2.2.2.2.2.2.1
      ((inp.Rdeg.getD k 0 - 1 : Int) : ℚ) (by exact_mod_cast by omega)
    linarith
  · unfold sim_singletons
    exact foldl_proj_const SimState.dtail _ (by intro s' a; rfl) _ _

/-- Tail and dtail only grow in the column-element loop; head and dhead
are untouched there. -/
theorem sim_col_elements_bounds (M : UnitsModel) (inp : SimInputs)
    (hM : ModelOk M) (s : SimState) :
    s.tail_usage ≤ (sim_col_elements M inp s).tail_usage ∧
    (sim_col_elements M inp s).head_usage = s.head_usage ∧
    s.dtail ≤ (sim_col_elements M inp s).dtail ∧
    (sim_col_elements M inp s).dhead = s.dhead := by
  refine ⟨?_, ?_, ?_, ?_⟩
  · unfold sim_col_elements
    apply foldl_proj_mono SimState.tail_usage
    intro s' k hk
    dsimp only
    split_ifs with h1 h2 h3
    · have := hM.2.2.2.2.2.1 (inp.Esize.getD (k - inp.n1) 0) 1
        (by omega) (by omega)
      dsimp only
      omega
    · exact le_rfl
    · have := hM.2.2.2.2.2.1 (inp.Cdeg.getD k 0) 1 (by omega) (by omega)
      dsimp only
      omega
    · exact le_rfl
  · unfold sim_col_elements
    exact foldl_proj_const SimState.head_usage _
      (by intro s' a; dsimp only; split_ifs <;> rfl) _ _
  · unfold sim_col_elements
    apply foldl_proj_mono SimState.dtail
    intro s' k hk
    dsimp only
    split_ifs with h1 h2 h3
    · have h0 : (0 : ℚ) ≤ ((inp.Esize.getD (k - inp.n1) 0 : Int) : ℚ) := by
        exact_mod_cast by omega
      have := hM.2.2.2.2.2.2.2.2.2.2.2.2 _ 1 h0 (by norm_num)
      dsimp only
      linarith
    · exact le_rfl
    · have h0 : (0 : ℚ) ≤ ((inp.Cdeg.getD k 0 : Int) : ℚ) := by
        exact_mod_cast by omega
      have := hM.2.2.2.2.2.2.2.2.2.2.2.2 _ 1 h0 (by norm_num)
      dsimp only
      linarith
    · exact le_rfl
  · unfold sim_col_elements
    exact foldl_proj_const SimState.dhead _
      (by intro s' a; dsimp only; split_ifs <;> rfl) _ _

/-- Tail and dtail only grow in the dense-row loop; head and dhead are
untouched there. -/
theorem sim_dense_rows_bounds (M : UnitsModel) (inp : SimInputs)
    (hM : ModelOk M) (hdt : 0 ≤ inp.dense_row_threshold) (s : SimState) :
    s.tail_usage ≤ (sim_dense_rows M inp s).tail_usage ∧
    (sim_dense_rows M inp s).head_usage = s.head_usage ∧
    s.dtail ≤ (sim_dense_rows M inp s).dtail ∧
    (sim_dense_rows M inp s).dhead = s.dhead := by
  unfold sim_dense_rows
  split_ifs with hp
  · refine ⟨?_, ?_, ?_, ?_⟩
    · apply foldl_proj_mono SimState.tail_usage
      intro s' k hk
      dsimp only
      split_ifs with h
      · have := hM.2.2.2.2.2.1 1 (inp.Rdeg.getD k 0) (by omega) (by omega)
        dsimp only
        omega
      · exact le_rfl
    · exact foldl_proj_const SimState.head_usage _
        (by intro s' a; dsimp only; split_ifs <;> rfl) _ _
    · apply foldl_proj_mono SimState.dtail
      intro s' k hk
      dsimp only
      split_ifs with h
      · have hge := hM.2.2.2.2.2.1 1 (inp.Rdeg.getD k 0) (by omega) (by omega)
        have : (0 : ℚ) ≤ ((M.geSize 1 (inp.Rdeg.getD k 0) : Int) : ℚ) := by
          exact_mod_cast hge
        dsimp only
        linarith
      · exact le_rfl
    · exact foldl_proj_const SimState.dhead _
        (by intro s' a; dsimp only; split_ifs <;> rfl) _ _
  · exact ⟨le_rfl, rfl, le_rfl, rfl⟩

/-- Tail and dtail only grow in the tuple loops; head and dhead are
untouched there. -/
theorem sim_tuples_bounds (M : UnitsModel) (inp : SimInputs)
    (hM : ModelOk M) (s : SimState) :
    s.tail_usage ≤ (sim_tuples M inp s).tail_usage ∧
    (sim_tuples M inp s).head_usage = s.head_usage ∧
    s.dtail ≤ (sim_tuples M inp s).dtail ∧
    (sim_tuples M inp s).dhead = s.dhead := by
  have htup : ∀ n : Int, 0 ≤ M.uTuple (M.tuples n) :=
    fun n => hM.2.2.2.2.1 _ (hM.2.2.2.2.2.2.1 n)
  have hdtup : ∀ n : Int, 0 ≤ M.duTuple (M.tuples n) :=
    fun n => hM.2.2.2.2.2.2.2.2.2.2.2.1 _ (hM.2.2.2.2.2.2.1 n)
  unfold sim_tuples
  split_ifs with hp
  · refine ⟨?_, ?_, ?_, ?_⟩
    · dsimp only
      refine le_trans (le_trans
        (foldl_proj_mono SimState.tail_usage _ _ s ?_)
        (foldl_proj_mono SimState.tail_usage _ _ _ ?_))
        (foldl_proj_mono SimState.tail_usage _ _ _ ?_)
      · intro s' a ha
        dsimp only
        have h := htup (if inp.dense_row_threshold < inp.Rdeg.getD a 0 then 1
          else inp.Rdeg.getD a 0)
        omega
      · intro s' a ha
        dsimp only
        have h := htup ((if 0 < inp.Esize.getD (a - inp.n1) 0 then 1 else 0) +
          (inp.Cdeg.getD a 0 - inp.Esize.getD (a - inp.n1) 0))
        omega
      · intro s' a ha
        dsimp only
        have h := htup 0
        omega
    · dsimp only
      refine Eq.trans (foldl_proj_const SimState.head_usage _
        (by intro s' a; rfl) _ _) ?_
      refine Eq.trans (foldl_proj_const SimState.head_usage _
        (by intro s' a; rfl) _ _) ?_
      exact foldl_proj_const SimState.head_usage _ (by intro s' a; rfl) _ _
    · dsimp only
      refine le_trans (le_trans
        (foldl_proj_mono SimState.dtail _ _ s ?_)
        (foldl_proj_mono SimState.dtail _ _ _ ?_))
        (foldl_proj_mono SimState.dtail _ _ _ ?_)
      · intro s' a ha
        dsimp only
        have h := hdtup (if inp.dense_row_threshold < inp.Rdeg.getD a 0 then 1
          else inp.Rdeg.getD a 0)
        linarith
      · intro s' a ha
        dsimp only
        have h := hdtup ((if 0 < inp.Esize.getD (a - inp.n1) 0 then 1 else 0) +
          (inp.Cdeg.getD a 0 - inp.Esize.getD (a - inp.n1) 0))
        linarith
      · intro s' a ha
        dsimp only
        have h := hdtup 0
        linarith
    · dsimp only
      refine Eq.trans (foldl_proj_const SimState.dhead _
        (by intro s' a; rfl) _ _) ?_
      refine Eq.trans (foldl_proj_const SimState.dhead _
        (by intro s' a; rfl) _ _) ?_
      exact foldl_proj_const SimState.dhead _ (by intro s' a; rfl) _ _
  · refine ⟨?_, ?_, ?_, ?_⟩
    · dsimp only
      refine le_trans (foldl_proj_mono SimState.tail_usage _ _ s ?_)
        (foldl_proj_mono SimState.tail_usage _ _ _ ?_)
      · intro s' a ha
        dsimp only
        have h := htup (inp.Rdeg.getD a 0)
        omega
      · intro s' a ha
        dsimp only
        have h := htup 1
        omega
    · dsimp only
      refine Eq.trans (foldl_proj_const SimState.head_usage _
        (by intro s' a; rfl) _ _) ?_
      exact foldl_proj_const SimState.head_usage _ (by intro s' a; rfl) _ _
    · dsimp only
      refine le_trans (foldl_proj_mono SimState.dtail _ _ s ?_)
        (foldl_proj_mono SimState.dtail _ _ _ ?_)
      · intro s' a ha
        dsimp only
        have h := hdtup (inp.Rdeg.getD a 0)
        linarith
      · intro s' a ha
        dsimp only
        have h := hdtup 1
        linarith
    · dsimp only
      refine Eq.trans (foldl_proj_const SimState.dhead _
        (by intro s' a; rfl) _ _) ?_
      exact foldl_proj_const SimState.dhead _ (by intro s' a; rfl) _ _

/-- Lower bounds on the state the setup phase produces: the head marker,
and the tail markers together with the Rpi/Rpx workspace, are never
released during setup. -/
theorem sim_setup_ge (M : UnitsModel) (inp : SimInputs) (hM : ModelOk M)
    (hd1 : ∀ k, k < inp.n1 → 1 ≤ inp.Cdeg.getD k 0 ∧ 1 ≤ inp.Rdeg.getD k 0)
    (hdt : 0 ≤ inp.dense_row_threshold) :
    1 ≤ (sim_setup M inp).head_usage ∧
    2 + (M.uIntPtr ((inp.n_row : Int) + 1) +
      M.uEntryPtr ((inp.n_row : Int) + 1) + 2) ≤
      (sim_setup M inp).tail_usage ∧
    (2 : ℚ) + (M.duIntPtr ((inp.n_row : Int) + 1) +
      M.duEntryPtr ((inp.n_row : Int) + 1) + 2) ≤ (sim_setup M inp).dtail := by
  obtain ⟨s1h, s1t, s1dh, s1dt⟩ :=
    sim_singletons_bounds M inp hM hd1 (sim_init M inp)
  obtain ⟨c2t, c2h, c2dt, c2dh⟩ :=
    sim_col_elements_bounds M inp hM
      (sim_singletons M inp (sim_init M inp))
  obtain ⟨d3t, d3h, d3dt, d3dh⟩ :=
    sim_dense_rows_bounds M inp hM hdt
      (sim_col_elements M inp (sim_singletons M inp (sim_init M inp)))
  obtain ⟨t4t, t4h, t4dt, t4dh⟩ :=
    sim_tuples_bounds M inp hM
      (sim_dense_rows M inp
        (sim_col_elements M inp (sim_singletons M inp (sim_init M inp))))
  have hih : (sim_init M inp).head_usage = 1 := rfl
  have hit : (sim_init M inp).tail_usage = 2 +
      (M.uIntPtr ((inp.n_row : Int) + 1) +
        M.uEntryPtr ((inp.n_row : Int) + 1) + 2) := rfl
  have hidt : (sim_init M inp).dtail = 2 +
      (M.duIntPtr ((inp.n_row : Int) + 1) +
        M.duEntryPtr ((inp.n_row : Int) + 1) + 2) := rfl
  refine ⟨?_, ?_, ?_⟩
  · unfold sim_setup
    rw [t4h, d3h, c2h]
    omega
  · unfold sim_setup
    omega
  · unfold sim_setup
    linarith

/-- The nonzero bound for L as the claim states it: n_inner for the unit
diagonal, plus Cdeg[k]-1 per singleton, plus the per-front contribution,
written as closed sums to be compared with the folded accumulation of the
simulation. -/
def spec_lnz (inp : SimInputs) : ℚ :=
  (inp.n_inner : ℚ) +
  ((List.range inp.n1).map (fun k => ((inp.Cdeg.getD k 0 - 1 : Int) : ℚ))).sum +
  ((List.range inp.fronts.nfr).map (front_dlf inp.fronts)).sum

/-- The nonzero bound for U as the claim states it. -/
def spec_unz (inp : SimInputs) : ℚ :=
  (inp.n_inner : ℚ) +
  ((List.range inp.n1).map (fun k => ((inp.Rdeg.getD k 0 - 1 : Int) : ℚ))).sum +
  ((List.range inp.fronts.nfr).map (front_duf inp.fronts)).sum

/-- A concrete storage model with unit-sized granules, a valid instance of
the abstract UnitsModel for instantiating the simulation theorems. -/
def unitModel : UnitsModel :=
  { uIntPtr := fun n => n
    uEntryPtr := fun n => n
    uInt := fun n => n
    uEntry := fun n => n
    uTuple := fun n => n
    geSize := fun r c => r * c + r + c + 2
    tuples := fun t => max 4 (t + 1)
    duIntPtr := fun n => (n : ℚ)
    duEntryPtr := fun n => (n : ℚ)
    duInt := fun x => x
    duEntry := fun x => x
    duTuple := fun n => (n : ℚ)
    dgeSize := fun r c => r * c + r + c + 2
    div_flops := 1
    multsub_flops := 1 }

theorem unitModel_ok : ModelOk unitModel := by
  unfold ModelOk unitModel
  dsimp only
  refine ⟨fun n h => h, fun n h => h, fun n h => h, fun n h => h,
    fun n h => h, fun r c hr hc => by positivity, fun t => ?_,
    fun n h => by exact_mod_cast h, fun n h => by exact_mod_cast h,
    fun x h => h, fun x h => h, fun n h => by exact_mod_cast h,
    fun r c hr hc => by positivity⟩
  simp only [le_max_iff]
  omega

/-- A concrete simulation input: a 2-by-2 fully dense matrix, no
singletons, a single frontal matrix holding both pivots and no parent. -/
def simInputW : SimInputs :=
  { n_row := 2
    n_col := 2
    n1 := 0
    nempty_col := 0
    nempty_row := 0
    n_inner := 2
    nb := 32
    Cdeg := [2, 2]
    Rdeg := [2, 2]
    dense_row_threshold := 2
    esize_present := false
    Esize := []
    fronts := { npivcol := [2], nrows := [2], ncols := [2], parent := [-1],
                nfr := 1 } }

/-- The T1 scenario of the spec: a 3-by-3 diagonal matrix; all three
pivots are singletons, so no fronts and no chains remain. -/
def simInputT1 : SimInputs :=
  { n_row := 3
    n_col := 3
    n1 := 3
    nempty_col := 0
    nempty_row := 0
    n_inner := 3
    nb := 32
    Cdeg := [1, 1, 1]
    Rdeg := [1, 1, 1]
    dense_row_threshold := 2
    esize_present := false
    Esize := []
    fronts := { npivcol := [], nrows := [], ncols := [], parent := [],
                nfr := 0 } }

/-- Modelled from the spec: the claimed chain of memory-estimate
inequalities usage_est >= size_est >= init_usage >= 2 (P7), to be
compared with what the simulation actually guarantees. -/
def mem_chain_claim (r : SimResult) : Prop :=
  r.num_mem_size_est ≤ r.num_mem_usage_est ∧
  ((r.num_mem_init_usage : Int) : ℚ) ≤ r.num_mem_size_est ∧
  2 ≤ r.num_mem_init_usage

/-! ### Claim theorems C2, C5, C6, C9, C10 -/

/-- C2 (corrected): with a square matrix, is_sym true and an in-range
requested strategy of auto and no Quser, the chosen strategy is symmetric
iff sym is at least the sym threshold and the nzdiag value computed by
prune_singletons is at least the nnzdiag threshold times n2 — where that
nzdiag value equals the structurally-present-and-numerically-nonzero
diagonal count of the pruned matrix when Ax is given, but equals 0
(not the structural count) when Ax is null. -/
theorem auto_strategy_selection (n1 nn : Nat) (Ap Ai : List Int)
    (Ax : Option (List ℚ)) (Cperm1 InvRperm1 : List Int)
    (n_row n_col : Int) (quser_present is_sym : Bool) (sym tsym tnzd : ℚ)
    (n2 : Int)
    (hsq : n_row = n_col) (hq : quser_present = false) (hsym : is_sym = true) :
    (chosen_strategy UMFPACK_STRATEGY_AUTO n_row n_col quser_present is_sym
        sym tsym (prune_singletons n1 nn Ap Ai Ax Cperm1 InvRperm1).nzdiag
        tnzd n2 = UMFPACK_STRATEGY_SYMMETRIC ↔
      (tsym ≤ sym ∧ tnzd * (n2 : ℚ) ≤
        ((prune_singletons n1 nn Ap Ai Ax Cperm1 InvRperm1).nzdiag : ℚ))) ∧
    (¬ (tsym ≤ sym ∧ tnzd * (n2 : ℚ) ≤
        ((prune_singletons n1 nn Ap Ai Ax Cperm1 InvRperm1).nzdiag : ℚ)) →
      chosen_strategy UMFPACK_STRATEGY_AUTO n_row n_col quser_present is_sym
        sym tsym (prune_singletons n1 nn Ap Ai Ax Cperm1 InvRperm1).nzdiag
        tnzd n2 = UMFPACK_STRATEGY_UNSYMMETRIC) ∧
    (prune_singletons n1 nn Ap Ai Ax Cperm1 InvRperm1).nzdiag =
      (match Ax with
       | none => 0
       | some _ => nzdiag_claimed n1 nn Ap Ai Ax Cperm1 InvRperm1) := by
  subst hsq hq hsym
  refine ⟨?_, ?_, prune_nzdiag_characterization n1 nn Ap Ai Ax Cperm1 InvRperm1⟩
  · unfold chosen_strategy strategy_auto_select strategy_after_singletons
      fix_strategy clamp_strategy_for_quser sanitize_strategy
      force_rectangular_strategy UMFPACK_STRATEGY_AUTO
      UMFPACK_STRATEGY_UNSYMMETRIC UMFPACK_STRATEGY_OBSOLETE
      UMFPACK_STRATEGY_SYMMETRIC
    split_ifs <;> simp_all
  · intro hne
    unfold chosen_strategy strategy_auto_select strategy_after_singletons
      fix_strategy clamp_strategy_for_quser sanitize_strategy
      force_rectangular_strategy UMFPACK_STRATEGY_AUTO
      UMFPACK_STRATEGY_UNSYMMETRIC UMFPACK_STRATEGY_OBSOLETE
      UMFPACK_STRATEGY_SYMMETRIC
    split_ifs <;> simp_all

/-- C2 witness: a fully dense 2-by-2 matrix with values supplied; both
thresholds are met and the symmetric strategy is chosen. -/
theorem auto_strategy_selection_witness :
    chosen_strategy UMFPACK_STRATEGY_AUTO 2 2 false true 1 (1/2)
        (prune_singletons 0 2 [0, 2, 4] [0, 1, 0, 1]
          (some [1, 1, 1, 1]) [0, 1] [0, 1]).nzdiag (9/10) 2 =
      UMFPACK_STRATEGY_SYMMETRIC := by
  have h := (auto_strategy_selection 0 2 [0, 2, 4] [0, 1, 0, 1]
    (some [1, 1, 1, 1]) [0, 1] [0, 1] 2 2 false true 1 (1/2) (9/10) 2
    rfl rfl rfl).1
  rw [h]
  have hz : (prune_singletons 0 2 [0, 2, 4] [0, 1, 0, 1]
      (some [1, 1, 1, 1]) [0, 1] [0, 1]).nzdiag = 2 := by decide
  rw [hz]
  constructor
  · norm_num
  · norm_num

/-- C2 counterexample: the same dense 2-by-2 pattern with Ax null.  The
claim's nzdiag (structural diagonal count, 2) passes the 0.9 threshold and
sym = 1 passes the 0.5 threshold, yet the code chooses the unsymmetric
strategy because prune_singletons reports nzdiag = 0 whenever Ax is null. -/
theorem auto_strategy_selection_counterexample :
    ¬ (chosen_strategy UMFPACK_STRATEGY_AUTO 2 2 false true 1 (1/2)
        (prune_singletons 0 2 [0, 2, 4] [0, 1, 0, 1] none [0, 1] [0, 1]).nzdiag
        (9/10) 2 = UMFPACK_STRATEGY_SYMMETRIC ↔
      ((1 : ℚ)/2 ≤ 1 ∧ (9 : ℚ)/10 * (2 : ℚ) ≤
        ((nzdiag_claimed 0 2 [0, 2, 4] [0, 1, 0, 1] none [0, 1] [0, 1] : Int) :
          ℚ))) := by
  intro h
  have hz : (prune_singletons 0 2 [0, 2, 4] [0, 1, 0, 1] none
      [0, 1] [0, 1]).nzdiag = 0 := by decide
  have hcl : nzdiag_claimed 0 2 [0, 2, 4] [0, 1, 0, 1] none [0, 1] [0, 1] = 2 := by
    decide
  rw [hz, hcl] at h
  have hlhs : chosen_strategy UMFPACK_STRATEGY_AUTO 2 2 false true 1 (1/2) 0
      (9/10) 2 = UMFPACK_STRATEGY_UNSYMMETRIC := by
    unfold chosen_strategy strategy_auto_select strategy_after_singletons
      fix_strategy clamp_strategy_for_quser sanitize_strategy
      force_rectangular_strategy UMFPACK_STRATEGY_AUTO
      UMFPACK_STRATEGY_UNSYMMETRIC UMFPACK_STRATEGY_OBSOLETE
      UMFPACK_STRATEGY_SYMMETRIC
    norm_num
  rw [hlhs] at h
  have hrhs : ((1 : ℚ)/2 ≤ 1 ∧ (9 : ℚ)/10 * (2 : ℚ) ≤ ((2 : Int) : ℚ)) := by
    norm_num
  have := h.mpr hrhs
  rw [UMFPACK_STRATEGY_UNSYMMETRIC, UMFPACK_STRATEGY_SYMMETRIC] at this
  omega

/-- C6: every stored Chain_maxrows value is odd — the running maximum of
front row counts is rounded up to the next odd integer at end-of-chain. -/
theorem chain_maxrows_odd (Fr_nrows Fr_ncols Front_parent : List Int)
    (nfr : Nat) :
    ∀ rec ∈ (build_chains Fr_nrows Fr_ncols Front_parent nfr).chains,
      Odd rec.maxrows := by
  unfold build_chains
  apply build_chains_step_odd
  intro rec hrec
  cases hrec

/-- C6 witness: a single front of 2 rows whose chain maxrows is stored as 3
(rounded up to odd). -/
theorem chain_maxrows_odd_witness :
    Odd (ChainRec.maxrows ⟨0, [0], 3, 3⟩) ∧
    (⟨0, [0], 3, 3⟩ : ChainRec) ∈ (build_chains [2] [3] [-1] 1).chains :=
  ⟨chain_maxrows_odd [2] [3] [-1] 1 ⟨0, [0], 3, 3⟩ (by decide), by decide⟩

/-! ### combine_ordering (umfpack_qsymbolic.c, lines 582-631) -/

/-- combine_ordering: compose the singleton/empty-column ordering Cperm1
with the inverse fill-reducing permutation Qinv of the non-singleton
interior into Cperm_init.  Indices [0, n1) carry the singleton columns in
peel order, indices [n1, n_col - nempty_col) the non-singleton columns at
position knew = Qinv [k - n1] + n1, and the final nempty_col indices the
empty columns.  The output array is uninitialized in the source (debug
builds prefill EMPTY and assert the result is a permutation); under the
stated hypotheses every slot is written, so the prefill below is
immaterial. -/
def combine_ordering (n1 nempty_col n_col : Nat) (Cperm1 Qinv : List Int) :
    List Int :=
  let C0 := List.replicate n_col EMPTY
  let C1 := (List.range n1).foldl
    (fun C k => C.set k (Cperm1.getD k 0)) C0
  let C2 := (List.range' n1 (n_col - nempty_col - n1)).foldl
    (fun C k => C.set ((Qinv.getD (k - n1) 0).toNat + n1) (Cperm1.getD k 0)) C1
  (List.range' (n_col - nempty_col) nempty_col).foldl
    (fun C k => C.set k (Cperm1.getD k 0)) C2

theorem combine_ordering_length (n1 nempty_col n_col : Nat)
    (Cperm1 Qinv : List Int) :
    (combine_ordering n1 nempty_col n_col Cperm1 Qinv).length = n_col := by
  unfold combine_ordering
  rw [foldl_set_length, foldl_set_length, foldl_set_length,
    List.length_replicate]

/-- Slot-level characterization of combine_ordering: singleton slots and
empty-column slots copy Cperm1, interior slot j holds the non-singleton
column whose Qinv position is j - n1. -/
theorem combine_ordering_getD (n1 nempty_col n_col : Nat)
    (Cperm1 Qinv : List Int) (hle : n1 + nempty_col ≤ n_col)
    (hq : IsPermOfRange Qinv (n_col - nempty_col - n1)) :
    ∀ j, j < n_col →
      (j < n1 →
        (combine_ordering n1 nempty_col n_col Cperm1 Qinv).getD j 0 =
          Cperm1.getD j 0) ∧
      (n1 ≤ j → j < n_col - nempty_col →
        ∃ idx, idx < n_col - nempty_col - n1 ∧
          Qinv.getD idx 0 = (j : Int) - (n1 : Int) ∧
          (combine_ordering n1 nempty_col n_col Cperm1 Qinv).getD j 0 =
            Cperm1.getD (n1 + idx) 0) ∧
      (n_col - nempty_col ≤ j →
        (combine_ordering n1 nempty_col n_col Cperm1 Qinv).getD j 0 =
          Cperm1.getD j 0) := by
  intro j hj
  have hlen01 : ((List.range n1).foldl
      (fun C k => C.set k (Cperm1.getD k 0))
      (List.replicate n_col EMPTY)).length = n_col := by
    rw [foldl_set_length, List.length_replicate]
  have hlen2 : ((List.range' n1 (n_col - nempty_col - n1)).foldl
      (fun C k => C.set ((Qinv.getD (k - n1) 0).toNat + n1) (Cperm1.getD k 0))
      ((List.range n1).foldl (fun C k => C.set k (Cperm1.getD k 0))
        (List.replicate n_col EMPTY))).length = n_col := by
    rw [foldl_set_length, hlen01]
  refine ⟨fun hjlow => ?_, fun hjn1 hjmid => ?_, fun hjhigh => ?_⟩
  · -- j < n1: written by the first loop, untouched afterwards
    unfold combine_ordering
    rw [foldl_set_getD_of_not_written]
    swap
    · intro k hk
      have := List.mem_range'_1.mp hk
      omega
    rw [foldl_set_getD_of_not_written]
    swap
    · intro k hk
      have hk' := List.mem_range'_1.mp hk
      have hqr := hq.2.1 (k - n1) (by omega)
      omega
    rw [foldl_set_getD_of_written (List.range n1) (fun k => k)
      (fun k => Cperm1.getD k 0) _ j j (List.mem_range.mpr hjlow) rfl
      (by rw [List.length_replicate]; omega)
      (fun k' _ h => h)]
  · -- n1 <= j < n_col - nempty_col: written by the second loop
    obtain ⟨idx, hidx, hidxval⟩ := hq.surj (v := (j : Int) - (n1 : Int))
      (by omega) (by omega)
    refine ⟨idx, hidx, hidxval, ?_⟩
    unfold combine_ordering
    rw [foldl_set_getD_of_not_written]
    swap
    · intro k hk
      have := List.mem_range'_1.mp hk
      omega
    have hwrite := foldl_set_getD_of_written
      (List.range' n1 (n_col - nempty_col - n1))
      (fun k => (Qinv.getD (k - n1) 0).toNat + n1)
      (fun k => Cperm1.getD k 0)
      ((List.range n1).foldl (fun C k => C.set k (Cperm1.getD k 0))
        (List.replicate n_col EMPTY))
      j (n1 + idx)
      (by
        rw [List.mem_range'_1]
        omega)
      (by
        simp only [Nat.add_sub_cancel_left]
        omega)
      (by rw [hlen01]; omega)
      (by
        intro k' hk' hpk'
        have hk'r := List.mem_range'_1.mp hk'
        simp only at hpk'
        have hqk' := hq.2.1 (k' - n1) (by omega)
        have : Qinv.getD (k' - n1) 0 = (j : Int) - (n1 : Int) := by omega
        have heq : k' - n1 = idx := hq.2.2 (k' - n1) (by omega) idx hidx
          (by rw [this, hidxval])
        omega)
    exact hwrite
  · -- n_col - nempty_col <= j: written by the third loop
    unfold combine_ordering
    rw [foldl_set_getD_of_written (List.range' (n_col - nempty_col) nempty_col)
      (fun k => k) (fun k => Cperm1.getD k 0) _ j j
      (by rw [List.mem_range'_1]; omega) rfl
      (by rw [hlen2]; omega)
      (fun k' _ h => h)]

/-- The output of combine_ordering is a permutation of 0..n_col-1 whenever
Cperm1 is one and Qinv is a permutation of the non-singleton interior (the
invariant the source asserts in debug builds at lines 623-628). -/
theorem combine_ordering_perm (n1 nempty_col n_col : Nat)
    (Cperm1 Qinv : List Int) (hle : n1 + nempty_col ≤ n_col)
    (hc1 : IsPermOfRange Cperm1 n_col)
    (hq : IsPermOfRange Qinv (n_col - nempty_col - n1)) :
    IsPermOfRange (combine_ordering n1 nempty_col n_col Cperm1 Qinv) n_col := by
  have hchar := combine_ordering_getD n1 nempty_col n_col Cperm1 Qinv hle hq
  have hsrc : ∀ j, j < n_col → ∃ t, t < n_col ∧
      (combine_ordering n1 nempty_col n_col Cperm1 Qinv).getD j 0 =
        Cperm1.getD t 0 ∧
      ((j < n1 ∧ t = j) ∨
       (n1 ≤ j ∧ j < n_col - nempty_col ∧ n1 ≤ t ∧ t < n_col - nempty_col ∧
         Qinv.getD (t - n1) 0 = (j : Int) - (n1 : Int)) ∨
       (n_col - nempty_col ≤ j ∧ t = j)) := by
    intro j hj
    by_cases h1 : j < n1
    · exact ⟨j, hj, (hchar j hj).1 h1, Or.inl ⟨h1, rfl⟩⟩
    · by_cases h2 : j < n_col - nempty_col
      · obtain ⟨idx, hidx, hval, heq⟩ := (hchar j hj).2.1 (by omega) h2
        refine ⟨n1 + idx, by omega, heq,
          Or.inr (Or.inl ⟨by omega, h2, by omega, by omega, ?_⟩)⟩
        simpa using hval
      · exact ⟨j, hj, (hchar j hj).2.2 (by omega),
          Or.inr (Or.inr ⟨by omega, rfl⟩)⟩
  refine ⟨combine_ordering_length n1 nempty_col n_col Cperm1 Qinv, ?_, ?_⟩
  · intro j hj
    obtain ⟨t, ht, heq, _⟩ := hsrc j hj
    rw [heq]
    exact hc1.2.1 t ht
  · intro j₁ hj₁ j₂ hj₂ heq
    obtain ⟨t₁, ht₁, he₁, hr₁⟩ := hsrc j₁ hj₁
    obtain ⟨t₂, ht₂, he₂, hr₂⟩ := hsrc j₂ hj₂
    rw [he₁, he₂] at heq
    have htt : t₁ = t₂ := hc1.2.2 t₁ ht₁ t₂ ht₂ heq
    subst htt
    rcases hr₁ with ⟨hA, hB⟩ | ⟨hA, hB, hC, hD, hE⟩ | ⟨hA, hB⟩ <;>
      rcases hr₂ with ⟨hA', hB'⟩ | ⟨hA', hB', hC', hD', hE'⟩ | ⟨hA', hB'⟩ <;>
      omega

/-! ### Row permutation construction (umfpack_qsymbolic.c, lines 2044-2089)

Each original row is assigned to a front by InFront (lines 1912-2003):
InFront [row] = EMPTY for the n1 singleton pivot rows, InFront [row] = nfr
for empty rows (the dummy front), and otherwise the real front that claimed
the row.  Front_1strow [i] first tallies the rows of front i and is then
prefix-summed starting at n1; the scatter loop writes every non-singleton
row at the next free slot of its front. -/

/-- Number of rows whose InFront value is i (the tally the source stores in
Front_1strow [i] before the prefix sum). -/
def front_tally (InFront : List Int) (n_row : Nat) (i : Nat) : Nat :=
  ((Finset.range n_row).filter (fun r => InFront.getD r 0 = (i : Int))).card

/-- Front_1strow [i] after the prefix-sum loop (lines 2055-2067): the first
slot of front i in the new row order. -/
def front_1strow (InFront : List Int) (n_row n1 : Nat) (i : Nat) : Nat :=
  n1 + (Finset.range i).sum (fun i' => front_tally InFront n_row i')

/-- Rank of a row within its front: the number of earlier rows with the
same InFront value. -/
def row_rank (InFront : List Int) (row : Nat) : Nat :=
  ((Finset.range row).filter
    (fun r => InFront.getD r 0 = InFront.getD row 0)).card

/-- The slot the scatter loop assigns to a non-singleton row: the start of
its front plus its rank (the value F1 [InFront row] holds when the loop
reaches the row). -/
def row_slot (InFront : List Int) (n_row n1 : Nat) (row : Nat) : Nat :=
  front_1strow InFront n_row n1 (InFront.getD row 0).toNat +
    row_rank InFront row

/-- One step of the scatter loop at lines 2079-2088: state is the pair
(Rperm_init, F1). -/
def rperm_scatter_step (InFront : List Int) (st : List Int × List Int)
    (row : Nat) : List Int × List Int :=
  let i := InFront.getD row 0
  if i = EMPTY then st
  else
    let newrow := st.2.getD i.toNat 0
    (st.1.set newrow.toNat (row : Int), st.2.set i.toNat (newrow + 1))

/-- Lines 2044-2089: build Rperm_init.  Slots [0, n1) receive the singleton
pivot rows Rperm1 [0..n1); F1 is the copy of the prefix-summed Front_1strow
(the source copies it into workspace at lines 2074-2077); the scatter loop
then places every row with InFront [row] != EMPTY.  Rperm_init is
uninitialized in the source before these writes; under the stated
hypotheses every slot is written, so the prefill is immaterial. -/
def build_rperm_init (n_row n1 nfr : Nat) (Rperm1 InFront : List Int) :
    List Int :=
  let R0 := (List.range n1).foldl
    (fun R k => R.set k (Rperm1.getD k 0)) (List.replicate n_row EMPTY)
  let F1 : List Int := (List.range (nfr + 1)).map
    (fun i => (front_1strow InFront n_row n1 i : Int))
  ((List.range n_row).foldl (rperm_scatter_step InFront) (R0, F1)).1

/-- Contents of the F1 workspace after the scatter loop has processed rows
0..a-1: the start slot of each front advanced by the rows of that front
already placed. -/
def f1at (InFront : List Int) (n_row n1 nfr a : Nat) : List Int :=
  (List.range (nfr + 1)).map (fun i =>
    (front_1strow InFront n_row n1 i : Int) +
    (((Finset.range a).filter
      (fun r => InFront.getD r 0 = (i : Int))).card : Int))

theorem f1at_zero (InFront : List Int) (n_row n1 nfr : Nat) :
    f1at InFront n_row n1 nfr 0 =
      (List.range (nfr + 1)).map
        (fun i => (front_1strow InFront n_row n1 i : Int)) := by
  unfold f1at
  simp

theorem front_count_succ (InFront : List Int) (a : Nat) (i : Int) :
    ((Finset.range (a + 1)).filter
      (fun r => InFront.getD r 0 = i)).card =
    ((Finset.range a).filter (fun r => InFront.getD r 0 = i)).card +
      (if InFront.getD a 0 = i then 1 else 0) := by
  rw [Finset.range_succ, Finset.filter_insert]
  split_ifs with h
  · rw [Finset.card_insert_of_not_mem (by simp)]
  · rfl

theorem rperm_scatter_dynamic_eq_static (InFront : List Int)
    (n_row n1 nfr : Nat)
    (hwf : ∀ r, r < n_row → InFront.getD r 0 = EMPTY ∨
      (0 ≤ InFront.getD r 0 ∧ InFront.getD r 0 ≤ (nfr : Int))) :
    ∀ (c a : Nat), a + c ≤ n_row → ∀ (R : List Int),
    (List.range' a c).foldl (rperm_scatter_step InFront)
      (R, f1at InFront n_row n1 nfr a) =
    ((List.range' a c).foldl
      (fun R row => if InFront.getD row 0 = EMPTY then R
        else R.set (row_slot InFront n_row n1 row) (row : Int)) R,
     f1at InFront n_row n1 nfr (a + c)) := by
  intro c
  induction c with
  | zero =>
    intro a _ R
    simp [List.range']
  | succ c ih =>
    intro a h R
    rw [List.range'_succ, List.foldl_cons, List.foldl_cons]
    by_cases hE : InFront.getD a 0 = EMPTY
    · have hstep : rperm_scatter_step InFront
          (R, f1at InFront n_row n1 nfr a) a =
          (R, f1at InFront n_row n1 nfr a) := by
        simp only [rperm_scatter_step]
        rw [if_pos hE]
      have hfeq : f1at InFront n_row n1 nfr (a + 1) =
          f1at InFront n_row n1 nfr a := by
        unfold f1at
        apply List.map_congr_left
        intro i _
        rw [front_count_succ]
        have : ¬ (InFront.getD a 0 = (i : Int)) := by
          rw [hE]
          unfold EMPTY
          omega
        rw [if_neg this]
        simp
      rw [hstep, if_pos hE, ← hfeq]
      have harith : a + (c + 1) = (a + 1) + c := by omega
      rw [harith]
      exact ih (a + 1) (by omega) R
    · have hwfa := hwf a (by omega)
      have hge : 0 ≤ InFront.getD a 0 := by
        rcases hwfa with h' | h'
        · exact absurd h' hE
        · exact h'.1
      have hle' : InFront.getD a 0 ≤ (nfr : Int) := by
        rcases hwfa with h' | h'
        · exact absurd h' hE
        · exact h'.2
      set i : Int := InFront.getD a 0 with hi
      have hitn : i.toNat < nfr + 1 := by omega
      have hgetF1 : (f1at InFront n_row n1 nfr a).getD i.toNat 0 =
          (front_1strow InFront n_row n1 i.toNat : Int) +
          (((Finset.range a).filter
            (fun r => InFront.getD r 0 = (i.toNat : Int))).card : Int) := by
        unfold f1at
        have hlen : i.toNat < ((List.range (nfr + 1)).map (fun i =>
            (front_1strow InFront n_row n1 i : Int) +
            (((Finset.range a).filter
              (fun r => InFront.getD r 0 = (i : Int))).card : Int))).length := by
          simpa using hitn
        rw [getD_of_lt _ _ _ hlen]
        simp
      have hcast : ((i.toNat : Nat) : Int) = i := by omega
      have hrank : ((Finset.range a).filter
          (fun r => InFront.getD r 0 = (i.toNat : Int))).card =
          row_rank InFront a := by
        unfold row_rank
        rw [← hi, hcast]
      have hslot : ((f1at InFront n_row n1 nfr a).getD i.toNat 0).toNat =
          row_slot InFront n_row n1 a := by
        rw [hgetF1, hrank]
        unfold row_slot
        rw [← hi]
        omega
      have hstep : rperm_scatter_step InFront
          (R, f1at InFront n_row n1 nfr a) a =
          (R.set (row_slot InFront n_row n1 a) (a : Int),
           f1at InFront n_row n1 nfr (a + 1)) := by
        unfold rperm_scatter_step
        rw [← hi, if_neg hE]
        simp only
        congr 1
        · rw [hslot]
        · -- the F1 update advances the slot counter of front i
          have hlenf : (f1at InFront n_row n1 nfr a).length = nfr + 1 := by
            unfold f1at
            simp
          have hlenf' : (f1at InFront n_row n1 nfr (a + 1)).length = nfr + 1 := by
            unfold f1at
            simp
          apply List.ext_getElem
          · rw [List.length_set, hlenf, hlenf']
          · intro j hj₁ hj₂
            rw [List.length_set, hlenf] at hj₁
            have hjget : ∀ (b : Nat),
                ∀ hb : j < (f1at InFront n_row n1 nfr b).length,
                (f1at InFront n_row n1 nfr b)[j] =
                (front_1strow InFront n_row n1 j : Int) +
                (((Finset.range b).filter
                  (fun r => InFront.getD r 0 = (j : Int))).card : Int) := by
              intro b hb
              unfold f1at
              simp
            by_cases hji : j = i.toNat
            · subst hji
              rw [List.getElem_set_self]
              · rw [hjget (a + 1) (by unfold f1at; simpa using hj₁),
                  hgetF1, front_count_succ]
                rw [if_pos (by rw [← hi, hcast])]
                push_cast
                ring
            · rw [List.getElem_set_ne (by omega)]
              rw [hjget (a + 1) (by unfold f1at; simpa using hj₁)]
              have hj₃ : j < (f1at InFront n_row n1 nfr a).length := by
                rw [hlenf]
                exact hj₁
              rw [hjget a (by unfold f1at; simpa using hj₁)]
              rw [front_count_succ]
              rw [if_neg (by rw [← hi]; omega)]
              simp
      rw [hstep, if_neg hE]
      have harith : a + (c + 1) = (a + 1) + c := by omega
      rw [harith]
      exact ih (a + 1) (by omega) _

theorem foldl_skip_set (ks : List Nat) (c : Nat → Prop) [DecidablePred c]
    (p : Nat → Nat) (v : Nat → Int) (init : List Int) :
    ks.foldl (fun R k => if c k then R else R.set (p k) (v k)) init =
    (ks.filter (fun k => decide (¬ c k))).foldl
      (fun R k => R.set (p k) (v k)) init := by
  induction ks generalizing init with
  | nil => rfl
  | cons a t ih =>
    rw [List.foldl_cons, List.filter_cons]
    by_cases h : c a
    · rw [if_pos h, if_neg (by simp [h])]
      exact ih init
    · rw [if_neg h, if_pos (by simp [h]), List.foldl_cons]
      exact ih _

theorem front_1strow_succ (InFront : List Int) (n_row n1 i : Nat) :
    front_1strow InFront n_row n1 (i + 1) =
    front_1strow InFront n_row n1 i + front_tally InFront n_row i := by
  unfold front_1strow
  rw [Finset.sum_range_succ]
  omega

theorem front_1strow_mono (InFront : List Int) (n_row n1 : Nat)
    {i j : Nat} (hij : i ≤ j) :
    front_1strow InFront n_row n1 i ≤ front_1strow InFront n_row n1 j := by
  unfold front_1strow
  have h : (Finset.range i).sum (fun i' => front_tally InFront n_row i') ≤
      (Finset.range j).sum (fun i' => front_tally InFront n_row i') :=
    Finset.sum_le_sum_of_subset (Finset.range_subset.mpr hij)
  omega

theorem row_rank_lt_tally (InFront : List Int) (n_row row : Nat)
    (hrow : row < n_row) (i : Nat) (hi : InFront.getD row 0 = (i : Int)) :
    row_rank InFront row < front_tally InFront n_row i := by
  unfold row_rank front_tally
  simp only [hi]
  have hsub : (Finset.range (row + 1)).filter
      (fun r => InFront.getD r 0 = (i : Int)) ⊆
      (Finset.range n_row).filter (fun r => InFront.getD r 0 = (i : Int)) :=
    Finset.filter_subset_filter _ (Finset.range_subset.mpr (by omega))
  have hcard := Finset.card_le_card hsub
  rw [front_count_succ, if_pos hi] at hcard
  omega

theorem row_rank_strict (InFront : List Int) (r₁ r₂ : Nat) (hlt : r₁ < r₂)
    (hsame : InFront.getD r₁ 0 = InFront.getD r₂ 0) :
    row_rank InFront r₁ < row_rank InFront r₂ := by
  unfold row_rank
  simp only [hsame]
  have hsub : (Finset.range (r₁ + 1)).filter
      (fun r => InFront.getD r 0 = InFront.getD r₂ 0) ⊆
      (Finset.range r₂).filter
        (fun r => InFront.getD r 0 = InFront.getD r₂ 0) :=
    Finset.filter_subset_filter _ (Finset.range_subset.mpr (by omega))
  have hcard := Finset.card_le_card hsub
  rw [front_count_succ, if_pos hsame] at hcard
  omega

theorem row_slot_bounds (InFront : List Int) (n_row n1 nfr : Nat)
    (hwf : ∀ r, r < n_row → InFront.getD r 0 = EMPTY ∨
      (0 ≤ InFront.getD r 0 ∧ InFront.getD r 0 ≤ (nfr : Int)))
    (htot : front_1strow InFront n_row n1 (nfr + 1) = n_row)
    (row : Nat) (hrow : row < n_row) (hne : ¬ InFront.getD row 0 = EMPTY) :
    n1 ≤ row_slot InFront n_row n1 row ∧
    row_slot InFront n_row n1 row < n_row := by
  have hwfr := hwf row hrow
  have hge : 0 ≤ InFront.getD row 0 := by tauto
  have hub : InFront.getD row 0 ≤ (nfr : Int) := by tauto
  have hiv : InFront.getD row 0 = ((InFront.getD row 0).toNat : Int) := by omega
  constructor
  · unfold row_slot front_1strow
    omega
  · have h1 : row_slot InFront n_row n1 row <
        front_1strow InFront n_row n1 ((InFront.getD row 0).toNat + 1) := by
      rw [front_1strow_succ]
      have := row_rank_lt_tally InFront n_row row hrow
        (InFront.getD row 0).toNat hiv
      unfold row_slot
      omega
    have h2 : front_1strow InFront n_row n1 ((InFront.getD row 0).toNat + 1) ≤
        front_1strow InFront n_row n1 (nfr + 1) :=
      front_1strow_mono InFront n_row n1 (by omega)
    omega

theorem row_slot_inj (InFront : List Int) (n_row n1 nfr : Nat)
    (hwf : ∀ r, r < n_row → InFront.getD r 0 = EMPTY ∨
      (0 ≤ InFront.getD r 0 ∧ InFront.getD r 0 ≤ (nfr : Int)))
    (r₁ r₂ : Nat) (h₁ : r₁ < n_row) (h₂ : r₂ < n_row)
    (hne₁ : ¬ InFront.getD r₁ 0 = EMPTY) (hne₂ : ¬ InFront.getD r₂ 0 = EMPTY)
    (heq : row_slot InFront n_row n1 r₁ = row_slot InFront n_row n1 r₂) :
    r₁ = r₂ := by
  have hw₁ := hwf r₁ h₁
  have hw₂ := hwf r₂ h₂
  have hge₁ : 0 ≤ InFront.getD r₁ 0 := by tauto
  have hge₂ : 0 ≤ InFront.getD r₂ 0 := by tauto
  by_cases hsame : InFront.getD r₁ 0 = InFront.getD r₂ 0
  · -- same front: the ranks decide
    by_contra hner
    rcases Nat.lt_or_ge r₁ r₂ with hlt | hge
    · have := row_rank_strict InFront r₁ r₂ hlt hsame
      unfold row_slot at heq
      rw [hsame] at heq
      omega
    · have hlt : r₂ < r₁ := by omega
      have := row_rank_strict InFront r₂ r₁ hlt hsame.symm
      unfold row_slot at heq
      rw [hsame] at heq
      omega
  · -- different fronts: the slot intervals are disjoint
    exfalso
    have key : ∀ s₁ s₂ : Nat, s₁ < n_row → s₂ < n_row →
        ¬ InFront.getD s₁ 0 = EMPTY → ¬ InFront.getD s₂ 0 = EMPTY →
        InFront.getD s₁ 0 < InFront.getD s₂ 0 →
        row_slot InFront n_row n1 s₁ < row_slot InFront n_row n1 s₂ := by
      intro s₁ s₂ hs₁ hs₂ hnes₁ hnes₂ hlt
      have hgs₁ : 0 ≤ InFront.getD s₁ 0 := by
        have := hwf s₁ hs₁
        tauto
      have hgs₂ : 0 ≤ InFront.getD s₂ 0 := by
        have := hwf s₂ hs₂
        tauto
      have hiv₁ : InFront.getD s₁ 0 = ((InFront.getD s₁ 0).toNat : Int) := by
        omega
      have hstep : row_slot InFront n_row n1 s₁ <
          front_1strow InFront n_row n1 ((InFront.getD s₁ 0).toNat + 1) := by
        rw [front_1strow_succ]
        have := row_rank_lt_tally InFront n_row s₁ hs₁
          (InFront.getD s₁ 0).toNat hiv₁
        unfold row_slot
        omega
      have hmono : front_1strow InFront n_row n1
          ((InFront.getD s₁ 0).toNat + 1) ≤
          front_1strow InFront n_row n1 (InFront.getD s₂ 0).toNat :=
        front_1strow_mono InFront n_row n1 (by omega)
      have hfinal : front_1strow InFront n_row n1 (InFront.getD s₂ 0).toNat ≤
          row_slot InFront n_row n1 s₂ := by
        unfold row_slot
        omega
      omega
    rcases Int.lt_or_lt_of_ne hsame with hlt | hlt
    · have := key r₁ r₂ h₁ h₂ hne₁ hne₂ hlt
      omega
    · have := key r₂ r₁ h₂ h₁ hne₂ hne₁ hlt
      omega

theorem empties_card (InFront Rperm1 : List Int) (n_row n1 : Nat)
    (hsing : ∀ r, r < n_row → (InFront.getD r 0 = EMPTY ↔
      ∃ k, k < n1 ∧ Rperm1.getD k 0 = (r : Int)))
    (hr1 : ∀ k, k < n1 →
      0 ≤ Rperm1.getD k 0 ∧ Rperm1.getD k 0 < (n_row : Int))
    (hr1inj : ∀ k₁, k₁ < n1 → ∀ k₂, k₂ < n1 →
      Rperm1.getD k₁ 0 = Rperm1.getD k₂ 0 → k₁ = k₂) :
    ((Finset.range n_row).filter
      (fun r => InFront.getD r 0 = EMPTY)).card = n1 := by
  have h := Finset.card_bij
    (s := Finset.range n1)
    (t := (Finset.range n_row).filter (fun r => InFront.getD r 0 = EMPTY))
    (fun k _ => (Rperm1.getD k 0).toNat)
    (by
      intro k hk
      simp only []
      have hk' := Finset.mem_range.mp hk
      have hb := hr1 k hk'
      rw [Finset.mem_filter, Finset.mem_range]
      constructor
      · omega
      · refine (hsing (Rperm1.getD k 0).toNat (by omega)).mpr ⟨k, hk', ?_⟩
        omega)
    (by
      intro k₁ hk₁ k₂ hk₂ heq
      simp only [] at heq
      have hb₁ := hr1 k₁ (Finset.mem_range.mp hk₁)
      have hb₂ := hr1 k₂ (Finset.mem_range.mp hk₂)
      exact hr1inj k₁ (Finset.mem_range.mp hk₁) k₂ (Finset.mem_range.mp hk₂)
        (by omega))
    (by
      intro r hr
      rw [Finset.mem_filter, Finset.mem_range] at hr
      obtain ⟨k, hk, hval⟩ := (hsing r hr.1).mp hr.2
      refine ⟨k, Finset.mem_range.mpr hk, ?_⟩
      simp only []
      have hb := hr1 k hk
      omega)
  rw [Finset.card_range] at h
  omega

theorem front_1strow_total (InFront : List Int) (n_row n1 nfr : Nat)
    (hwf : ∀ r, r < n_row → InFront.getD r 0 = EMPTY ∨
      (0 ≤ InFront.getD r 0 ∧ InFront.getD r 0 ≤ (nfr : Int)))
    (hempties : ((Finset.range n_row).filter
      (fun r => InFront.getD r 0 = EMPTY)).card = n1) :
    front_1strow InFront n_row n1 (nfr + 1) = n_row := by
  have hsplit := Finset.filter_card_add_filter_neg_card_eq_card
    (s := Finset.range n_row) (p := fun r => InFront.getD r 0 = EMPTY)
  rw [Finset.card_range, hempties] at hsplit
  have hfib : ((Finset.range n_row).filter
      (fun r => ¬ InFront.getD r 0 = EMPTY)).card =
      (Finset.range (nfr + 1)).sum (fun i =>
        (((Finset.range n_row).filter
          (fun r => ¬ InFront.getD r 0 = EMPTY)).filter
          (fun r => (InFront.getD r 0).toNat = i)).card) :=
    Finset.card_eq_sum_card_fiberwise (by
      intro r hr
      rw [Finset.mem_filter, Finset.mem_range] at hr
      rw [Finset.mem_range]
      have := hwf r hr.1
      omega)
  have hfix : ∀ i ∈ Finset.range (nfr + 1),
      (((Finset.range n_row).filter
        (fun r => ¬ InFront.getD r 0 = EMPTY)).filter
        (fun r => (InFront.getD r 0).toNat = i)).card =
      front_tally InFront n_row i := by
    intro i _
    unfold front_tally
    rw [Finset.filter_filter]
    apply congrArg
    apply Finset.filter_congr
    intro r hr
    have := hwf r (Finset.mem_range.mp hr)
    unfold EMPTY at this ⊢
    constructor
    · intro ⟨h1, h2⟩
      omega
    · intro h
      omega
  rw [Finset.sum_congr rfl hfix] at hfib
  have heta : (Finset.range (nfr + 1)).sum (front_tally InFront n_row) =
      (Finset.range (nfr + 1)).sum
        (fun i' => front_tally InFront n_row i') := rfl
  unfold front_1strow
  omega

/-- The scatter loop of build_rperm_init, unrolled: it equals a one-shot
scatter placing each non-singleton row at its row_slot. -/
theorem build_rperm_init_eq_static (n_row n1 nfr : Nat)
    (Rperm1 InFront : List Int)
    (hwf : ∀ r, r < n_row → InFront.getD r 0 = EMPTY ∨
      (0 ≤ InFront.getD r 0 ∧ InFront.getD r 0 ≤ (nfr : Int))) :
    build_rperm_init n_row n1 nfr Rperm1 InFront =
      ((List.range n_row).filter
        (fun k => decide (¬ InFront.getD k 0 = EMPTY))).foldl
        (fun R k => R.set (row_slot InFront n_row n1 k) (k : Int))
        ((List.range n1).foldl (fun R k => R.set k (Rperm1.getD k 0))
          (List.replicate n_row EMPTY)) := by
  unfold build_rperm_init
  simp only []
  rw [← f1at_zero InFront n_row n1 nfr,
    show List.range n_row = List.range' 0 n_row from List.range_eq_range' n_row]
  rw [rperm_scatter_dynamic_eq_static InFront n_row n1 nfr hwf n_row 0
    (by omega)]
  simp only []
  rw [show List.range' 0 n_row = List.range n_row from
    (List.range_eq_range' n_row).symm, foldl_skip_set]

theorem build_rperm_init_length (n_row n1 nfr : Nat)
    (Rperm1 InFront : List Int)
    (hwf : ∀ r, r < n_row → InFront.getD r 0 = EMPTY ∨
      (0 ≤ InFront.getD r 0 ∧ InFront.getD r 0 ≤ (nfr : Int))) :
    (build_rperm_init n_row n1 nfr Rperm1 InFront).length = n_row := by
  rw [build_rperm_init_eq_static n_row n1 nfr Rperm1 InFront hwf,
    foldl_set_length, foldl_set_length, List.length_replicate]

/-- Slot-level characterization of Rperm_init: slots [0, n1) hold the
singleton pivot rows, and each slot j in [n1, n_row) holds the unique
non-singleton row whose row_slot is j. -/
theorem build_rperm_init_getD (n_row n1 nfr : Nat) (Rperm1 InFront : List Int)
    (hwf : ∀ r, r < n_row → InFront.getD r 0 = EMPTY ∨
      (0 ≤ InFront.getD r 0 ∧ InFront.getD r 0 ≤ (nfr : Int)))
    (hsing : ∀ r, r < n_row → (InFront.getD r 0 = EMPTY ↔
      ∃ k, k < n1 ∧ Rperm1.getD k 0 = (r : Int)))
    (hr1 : ∀ k, k < n1 →
      0 ≤ Rperm1.getD k 0 ∧ Rperm1.getD k 0 < (n_row : Int))
    (hr1inj : ∀ k₁, k₁ < n1 → ∀ k₂, k₂ < n1 →
      Rperm1.getD k₁ 0 = Rperm1.getD k₂ 0 → k₁ = k₂) :
    (∀ j, j < n1 →
      (build_rperm_init n_row n1 nfr Rperm1 InFront).getD j 0 =
        Rperm1.getD j 0) ∧
    (∀ j, n1 ≤ j → j < n_row → ∃ row, row < n_row ∧
      ¬ InFront.getD row 0 = EMPTY ∧ row_slot InFront n_row n1 row = j ∧
      (build_rperm_init n_row n1 nfr Rperm1 InFront).getD j 0 = (row : Int)) := by
  have hempt := empties_card InFront Rperm1 n_row n1 hsing hr1 hr1inj
  have htot := front_1strow_total InFront n_row n1 nfr hwf hempt
  have hn1 : n1 ≤ n_row := by
    have := hempt ▸ Finset.card_filter_le (Finset.range n_row)
      (fun r => InFront.getD r 0 = EMPTY)
    simpa using this
  constructor
  · intro j hj
    rw [build_rperm_init_eq_static n_row n1 nfr Rperm1 InFront hwf]
    rw [foldl_set_getD_of_not_written]
    swap
    · intro k hk
      rw [List.mem_filter] at hk
      have hkr := List.mem_range.mp hk.1
      have hkne : ¬ InFront.getD k 0 = EMPTY := by
        have := hk.2
        simpa using this
      have := row_slot_bounds InFront n_row n1 nfr hwf htot k hkr hkne
      omega
    rw [foldl_set_getD_of_written (List.range n1) (fun k => k)
      (fun k => Rperm1.getD k 0) _ j j (List.mem_range.mpr hj) rfl
      (by rw [List.length_replicate]; omega) (fun k' _ h => h)]
  · intro j hjl hjr
    have hNEcard : ((Finset.range n_row).filter
        (fun r => ¬ InFront.getD r 0 = EMPTY)).card = n_row - n1 := by
      have hsplit := Finset.filter_card_add_filter_neg_card_eq_card
        (s := Finset.range n_row) (p := fun r => InFront.getD r 0 = EMPTY)
      rw [Finset.card_range, hempt] at hsplit
      omega
    have hsurj := Finset.surj_on_of_inj_on_of_card_le
      (s := (Finset.range n_row).filter (fun r => ¬ InFront.getD r 0 = EMPTY))
      (t := Finset.Ico n1 n_row)
      (fun r _ => row_slot InFront n_row n1 r)
      (by
        intro r hr
        simp only []
        rw [Finset.mem_filter, Finset.mem_range] at hr
        rw [Finset.mem_Ico]
        exact row_slot_bounds InFront n_row n1 nfr hwf htot r hr.1 hr.2)
      (by
        intro r₁ r₂ hr₁ hr₂ heq
        simp only [] at heq
        rw [Finset.mem_filter, Finset.mem_range] at hr₁ hr₂
        exact row_slot_inj InFront n_row n1 nfr hwf r₁ r₂ hr₁.1 hr₂.1
          hr₁.2 hr₂.2 heq)
      (by rw [Nat.card_Ico, hNEcard])
    obtain ⟨row, hrowmem, hroweq⟩ := hsurj j (Finset.mem_Ico.mpr ⟨hjl, hjr⟩)
    simp only [] at hroweq
    rw [Finset.mem_filter, Finset.mem_range] at hrowmem
    refine ⟨row, hrowmem.1, hrowmem.2, hroweq.symm, ?_⟩
    rw [build_rperm_init_eq_static n_row n1 nfr Rperm1 InFront hwf]
    exact foldl_set_getD_of_written
      ((List.range n_row).filter (fun k => decide (¬ InFront.getD k 0 = EMPTY)))
      (row_slot InFront n_row n1) (fun k => (k : Int)) _ j row
      (by
        rw [List.mem_filter]
        exact ⟨List.mem_range.mpr hrowmem.1, by simpa using hrowmem.2⟩)
      hroweq.symm
      (by rw [foldl_set_length, List.length_replicate]; omega)
      (by
        intro k' hk' hpk'
        rw [List.mem_filter] at hk'
        exact row_slot_inj InFront n_row n1 nfr hwf k' row
          (List.mem_range.mp hk'.1) hrowmem.1 (by simpa using hk'.2)
          hrowmem.2 (by rw [hpk', hroweq]))

/-- Rperm_init as built at lines 2044-2089 is a permutation of 0..n_row-1
whenever the row-to-front assignment is well-formed: the rows marked EMPTY
are exactly the n1 singleton pivot rows (pairwise distinct and in range)
and every other InFront value lies in [0, nfr]. -/
theorem build_rperm_init_perm (n_row n1 nfr : Nat) (Rperm1 InFront : List Int)
    (hwf : ∀ r, r < n_row → InFront.getD r 0 = EMPTY ∨
      (0 ≤ InFront.getD r 0 ∧ InFront.getD r 0 ≤ (nfr : Int)))
    (hsing : ∀ r, r < n_row → (InFront.getD r 0 = EMPTY ↔
      ∃ k, k < n1 ∧ Rperm1.getD k 0 = (r : Int)))
    (hr1 : ∀ k, k < n1 →
      0 ≤ Rperm1.getD k 0 ∧ Rperm1.getD k 0 < (n_row : Int))
    (hr1inj : ∀ k₁, k₁ < n1 → ∀ k₂, k₂ < n1 →
      Rperm1.getD k₁ 0 = Rperm1.getD k₂ 0 → k₁ = k₂) :
    IsPermOfRange (build_rperm_init n_row n1 nfr Rperm1 InFront) n_row := by
  obtain ⟨hlow, hhigh⟩ := build_rperm_init_getD n_row n1 nfr Rperm1 InFront
    hwf hsing hr1 hr1inj
  refine ⟨build_rperm_init_length n_row n1 nfr Rperm1 InFront hwf, ?_, ?_⟩
  · intro j hj
    by_cases c : j < n1
    · rw [hlow j c]
      exact hr1 j c
    · obtain ⟨row, hrow, _, _, hval⟩ := hhigh j (by omega) hj
      rw [hval]
      omega
  · intro j₁ hj₁ j₂ hj₂ heq
    by_cases c₁ : j₁ < n1 <;> by_cases c₂ : j₂ < n1
    · rw [hlow j₁ c₁, hlow j₂ c₂] at heq
      exact hr1inj j₁ c₁ j₂ c₂ heq
    · obtain ⟨row₂, hrow₂, hne₂, hslot₂, hval₂⟩ := hhigh j₂ (by omega) hj₂
      rw [hlow j₁ c₁, hval₂] at heq
      exfalso
      exact hne₂ ((hsing row₂ hrow₂).mpr ⟨j₁, c₁, heq⟩)
    · obtain ⟨row₁, hrow₁, hne₁, hslot₁, hval₁⟩ := hhigh j₁ (by omega) hj₁
      rw [hlow j₂ c₂, hval₁] at heq
      exfalso
      exact hne₁ ((hsing row₁ hrow₁).mpr ⟨j₂, c₂, heq.symm⟩)
    · obtain ⟨row₁, hrow₁, hne₁, hslot₁, hval₁⟩ := hhigh j₁ (by omega) hj₁
      obtain ⟨row₂, hrow₂, hne₂, hslot₂, hval₂⟩ := hhigh j₂ (by omega) hj₂
      rw [hval₁, hval₂] at heq
      have hrr : row₁ = row₂ := by omega
      subst hrr
      omega

/-- Lines 1786-1802: when fixQ is false the column-etree post-order Cperm2
is composed into the interior of Cperm_init,
Cperm_init [n1 + k] <- Cperm_init [n1 + Cperm2 [k]]; W is the scratch copy
the source builds first. -/
def compose_postorder (n1 nempty_col n_col : Nat)
    (Cperm_init Cperm2 : List Int) : List Int :=
  let m := n_col - n1 - nempty_col
  let W := (List.range m).map
    (fun k => Cperm_init.getD (n1 + (Cperm2.getD k 0).toNat) 0)
  (List.range m).foldl (fun C k => C.set (n1 + k) (W.getD k 0)) Cperm_init

/-- Lines 1341-1348: the Quser path copies Cperm1 directly into
Cperm_init. -/
def copy_cperm (n_col : Nat) (Cperm1 : List Int) : List Int :=
  (List.range n_col).map (fun k => Cperm1.getD k 0)

theorem copy_cperm_perm (n_col : Nat) (Cperm1 : List Int)
    (hc1 : IsPermOfRange Cperm1 n_col) :
    IsPermOfRange (copy_cperm n_col Cperm1) n_col := by
  have hget : ∀ j, j < n_col →
      (copy_cperm n_col Cperm1).getD j 0 = Cperm1.getD j 0 := by
    intro j hj
    unfold copy_cperm
    have hlen : j < ((List.range n_col).map
        (fun k => Cperm1.getD k 0)).length := by
      simpa using hj
    rw [getD_of_lt _ _ _ hlen]
    simp
  refine ⟨by simp [copy_cperm], fun j hj => ?_, fun j₁ h₁ j₂ h₂ he => ?_⟩
  · rw [hget j hj]
    exact hc1.2.1 j hj
  · exact hc1.2.2 j₁ h₁ j₂ h₂ (by rwa [hget j₁ h₁, hget j₂ h₂] at he)

theorem compose_postorder_perm (n1 nempty_col n_col : Nat)
    (Cperm_init Cperm2 : List Int) (hle : n1 + nempty_col ≤ n_col)
    (hc : IsPermOfRange Cperm_init n_col)
    (h2 : IsPermOfRange Cperm2 (n_col - n1 - nempty_col)) :
    IsPermOfRange (compose_postorder n1 nempty_col n_col Cperm_init Cperm2)
      n_col := by
  set m := n_col - n1 - nempty_col with hm
  have hWget : ∀ k, k < m →
      ((List.range m).map
        (fun k => Cperm_init.getD (n1 + (Cperm2.getD k 0).toNat) 0)).getD k 0 =
      Cperm_init.getD (n1 + (Cperm2.getD k 0).toNat) 0 := by
    intro k hk
    have hlen : k < ((List.range m).map
        (fun k => Cperm_init.getD (n1 + (Cperm2.getD k 0).toNat) 0)).length := by
      simpa using hk
    rw [getD_of_lt _ _ _ hlen]
    simp
  have hchar : ∀ j, j < n_col → ∃ t, t < n_col ∧
      (compose_postorder n1 nempty_col n_col Cperm_init Cperm2).getD j 0 =
        Cperm_init.getD t 0 ∧
      (((j < n1 ∨ n1 + m ≤ j) ∧ t = j) ∨
       (n1 ≤ j ∧ j < n1 + m ∧ t = n1 + (Cperm2.getD (j - n1) 0).toNat)) := by
    intro j hj
    by_cases hmid : n1 ≤ j ∧ j < n1 + m
    · have hidx : j - n1 < m := by omega
      have hq := h2.2.1 (j - n1) hidx
      refine ⟨n1 + (Cperm2.getD (j - n1) 0).toNat, by omega, ?_,
        Or.inr ⟨hmid.1, hmid.2, rfl⟩⟩
      unfold compose_postorder
      rw [← hm]
      rw [foldl_set_getD_of_written (List.range m) (fun k => n1 + k)
        (fun k => ((List.range m).map (fun k =>
          Cperm_init.getD (n1 + (Cperm2.getD k 0).toNat) 0)).getD k 0)
        Cperm_init j (j - n1)
        (List.mem_range.mpr hidx) (by simp only []; omega)
        (by rw [hc.1]; omega)
        (fun k' hk' h => by
          simp only [] at h
          have := List.mem_range.mp hk'
          omega)]
      exact hWget (j - n1) hidx
    · refine ⟨j, hj, ?_, Or.inl ⟨by omega, rfl⟩⟩
      unfold compose_postorder
      rw [← hm]
      rw [foldl_set_getD_of_not_written]
      intro k hk
      have := List.mem_range.mp hk
      omega
  have hlen : (compose_postorder n1 nempty_col n_col Cperm_init Cperm2).length
      = n_col := by
    unfold compose_postorder
    rw [foldl_set_length, hc.1]
  refine ⟨hlen, fun j hj => ?_, fun j₁ h₁ j₂ h₂ he => ?_⟩
  · obtain ⟨t, ht, heq, _⟩ := hchar j hj
    rw [heq]
    exact hc.2.1 t ht
  · obtain ⟨t₁, ht₁, he₁, hr₁⟩ := hchar j₁ h₁
    obtain ⟨t₂, ht₂, he₂, hr₂⟩ := hchar j₂ h₂
    rw [he₁, he₂] at he
    have htt : t₁ = t₂ := hc.2.2 t₁ ht₁ t₂ ht₂ he
    subst htt
    rcases hr₁ with ⟨hA, hB⟩ | ⟨hA, hB, hC⟩ <;>
      rcases hr₂ with ⟨hA', hB'⟩ | ⟨hA', hB', hC'⟩
    · omega
    · exfalso
      have hq := h2.2.1 (j₂ - n1) (by omega)
      omega
    · exfalso
      have hq := h2.2.1 (j₁ - n1) (by omega)
      omega
    · have hq₁ := h2.2.1 (j₁ - n1) (by omega)
      have hq₂ := h2.2.1 (j₂ - n1) (by omega)
      have : Cperm2.getD (j₁ - n1) 0 = Cperm2.getD (j₂ - n1) 0 := by omega
      have := h2.2.2 (j₁ - n1) (by omega) (j₂ - n1) (by omega) this
      omega

/-! ### Claim theorem C1 -/

/-- C1: for every successful symbolic analysis, Cperm_init and Rperm_init
are permutations of their index ranges, on every ordering path.  The
combine_ordering output (AMD / COLAMD / external-ordering paths) is a
permutation of 0..n_col-1 given the singleton ordering Cperm1 and the
interior inverse ordering Qinv (every index appearing exactly once); the
post-order composition applied when fixQ is false preserves this; the
Quser path copies the already-validated permutation Cperm1; and Rperm_init
built from the row-to-front assignment is a permutation of 0..n_row-1
(every index appearing exactly once). -/
theorem cperm_rperm_init_are_permutations
    (n1 nempty_col n_col n_row nfr : Nat)
    (Cperm1 Qinv Cperm2 Rperm1 InFront : List Int)
    (hle : n1 + nempty_col ≤ n_col)
    (hc1 : IsPermOfRange Cperm1 n_col)
    (hq : IsPermOfRange Qinv (n_col - nempty_col - n1))
    (h2 : IsPermOfRange Cperm2 (n_col - n1 - nempty_col))
    (hwf : ∀ r, r < n_row → InFront.getD r 0 = EMPTY ∨
      (0 ≤ InFront.getD r 0 ∧ InFront.getD r 0 ≤ (nfr : Int)))
    (hsing : ∀ r, r < n_row → (InFront.getD r 0 = EMPTY ↔
      ∃ k, k < n1 ∧ Rperm1.getD k 0 = (r : Int)))
    (hr1 : ∀ k, k < n1 →
      0 ≤ Rperm1.getD k 0 ∧ Rperm1.getD k 0 < (n_row : Int))
    (hr1inj : ∀ k₁, k₁ < n1 → ∀ k₂, k₂ < n1 →
      Rperm1.getD k₁ 0 = Rperm1.getD k₂ 0 → k₁ = k₂) :
    (IsPermOfRange (combine_ordering n1 nempty_col n_col Cperm1 Qinv) n_col ∧
      ∀ v : Int, 0 ≤ v → v < (n_col : Int) →
        (combine_ordering n1 nempty_col n_col Cperm1 Qinv).count v = 1) ∧
    IsPermOfRange (compose_postorder n1 nempty_col n_col
      (combine_ordering n1 nempty_col n_col Cperm1 Qinv) Cperm2) n_col ∧
    IsPermOfRange (copy_cperm n_col Cperm1) n_col ∧
    (IsPermOfRange (build_rperm_init n_row n1 nfr Rperm1 InFront) n_row ∧
      ∀ v : Int, 0 ≤ v → v < (n_row : Int) →
        (build_rperm_init n_row n1 nfr Rperm1 InFront).count v = 1) := by
  have hcomb := combine_ordering_perm n1 nempty_col n_col Cperm1 Qinv hle hc1 hq
  have hrp := build_rperm_init_perm n_row n1 nfr Rperm1 InFront hwf hsing
    hr1 hr1inj
  exact ⟨⟨hcomb, fun v h0 hv => hcomb.count_eq_one h0 hv⟩,
    compose_postorder_perm n1 nempty_col n_col _ Cperm2 hle hcomb h2,
    copy_cperm_perm n_col Cperm1 hc1,
    hrp, fun v h0 hv => hrp.count_eq_one h0 hv⟩

/-- C1 witness: a concrete 4-by-4 instance with one singleton, one empty
column, two interior columns and two fronts' worth of rows. -/
theorem cperm_rperm_init_are_permutations_witness :
    IsPermOfRange (combine_ordering 1 1 4 [2, 0, 1, 3] [1, 0]) 4 ∧
    IsPermOfRange (build_rperm_init 4 1 1 [1, 0, 2, 3] [0, -1, 0, 1]) 4 :=
  ⟨(cperm_rperm_init_are_permutations 1 1 4 4 1 [2, 0, 1, 3] [1, 0] [1, 0]
      [1, 0, 2, 3] [0, -1, 0, 1] (by decide) (by decide) (by decide)
      (by decide) (by decide) (by decide) (by decide) (by decide)).1.1,
   (cperm_rperm_init_are_permutations 1 1 4 4 1 [2, 0, 1, 3] [1, 0] [1, 0]
      [1, 0, 2, 3] [0, -1, 0, 1] (by decide) (by decide) (by decide)
      (by decide) (by decide) (by decide) (by decide) (by decide)).2.2.2.1⟩

/-! ### Validation prologue (umfpack_qsymbolic.c, lines 793-989) -/

/-- Inputs of symbolic_analysis relevant to validation.  Pointer arguments
are modelled by presence flags plus (for Ap and Quser) their contents. -/
structure SymInputs where
  n_row : Int
  n_col : Int
  Ap : List Int
  ap_present : Bool
  ai_present : Bool
  handle_present : Bool
  Quser : Option (List Int)
deriving Repr

/-- Outcome of an early return: the status and the value left in
*SymbolicHandle (none = NULL, i.e. no Symbolic object returned). -/
structure EarlyOutcome where
  status : Status
  symbolic_out : Option Unit
deriving DecidableEq, Repr

/-- Modelled from the spec: UMF_is_permutation (umf_is_permutation.c is not
among the analysed sources) checks that its argument is a permutation of
0..n-1; the spec's validation stage rejects a Quser that is not a
permutation of 0..n_col-1. -/
def UMF_is_permutation (P : List Int) (n : Nat) : Bool :=
  decide (IsPermOfRange P n)

/-- Lines 793-989: the validation prologue of symbolic_analysis, up to and
including the Quser permutation check.  *SymbolicHandle is nulled at lines
804-807 before any check that can fail, so every early error return leaves
it null; the error helper then frees the partial Symbolic and SW objects
(the frees themselves are heap actions outside the embedding; UMF_malloc is
assumed to succeed, so the out_of_memory returns do not appear).  Returns
some outcome on an early return, none when control proceeds. -/
def symbolic_validate (inp : SymInputs) : Option EarlyOutcome :=
  if inp.ai_present = false ∨ inp.ap_present = false ∨
     inp.handle_present = false then
    some ⟨Status.argument_missing, none⟩
  else if inp.n_row ≤ 0 ∨ inp.n_col ≤ 0 then
    some ⟨Status.n_nonpositive, none⟩
  else if inp.Ap.getD inp.n_col.toNat 0 < 0 then
    some ⟨Status.invalid_matrix, none⟩
  else
    match inp.Quser with
    | none => none
    | some q =>
        if UMF_is_permutation q inp.n_col.toNat then none
        else some ⟨Status.invalid_permutation, none⟩

/-! ### Diagonal map (umfpack_qsymbolic.c, lines 2109-2142) -/

/-- Lines 2128-2133: invert Rperm_init into the workspace Ci, writing
Ci [Rperm_init [newrow]] = newrow for every newrow.  The workspace is
uninitialized in the source; since Rperm_init is a permutation every slot
in range is written, so the fill value below is immaterial. -/
def build_inverse (Rperm_init : List Int) (nn : Nat) : List Int :=
  (List.range nn).foldl
    (fun Ci newrow => Ci.set (Rperm_init.getD newrow 0).toNat (newrow : Int))
    (List.replicate nn 0)

/-- Lines 2135-2142: Diagonal_map [newcol] = Ci [Cperm_init [newcol]],
with Ci the inverse of Rperm_init. -/
def build_diagonal_map (Cperm_init Rperm_init : List Int) (nn : Nat) :
    List Int :=
  (List.range nn).map (fun newcol =>
    (build_inverse Rperm_init nn).getD (Cperm_init.getD newcol 0).toNat 0)

theorem build_inverse_getD (Rperm_init : List Int) (nn : Nat)
    (hR : IsPermOfRange Rperm_init nn) (j : Nat) (hj : j < nn) :
    (build_inverse Rperm_init nn).getD (Rperm_init.getD j 0).toNat 0 =
      (j : Int) := by
  unfold build_inverse
  apply foldl_set_getD_of_written (List.range nn)
    (fun k => (Rperm_init.getD k 0).toNat) (fun k => (k : Int)) _ _ j
    (List.mem_range.mpr hj) rfl
  · have := hR.2.1 j hj
    simp only [List.length_replicate]
    omega
  · intro k' hk' hpk'
    have hk'n := List.mem_range.mp hk'
    have h1 := hR.2.1 k' hk'n
    have h2 := hR.2.1 j hj
    simp only at hpk'
    refine hR.2.2 k' hk'n j hj ?_
    omega

/-! ### Claim theorems C4, C7 -/

/-- C4: whenever the earlier validation stages pass and the supplied Quser
is not a permutation of 0..n_col-1, symbolic_analysis returns
invalid_permutation with Info[STATUS] equal to that status and
*SymbolicHandle left null (the partial Symbolic and SW objects are released
by the error helper on this path). -/
theorem invalid_quser_rejected (inp : SymInputs) (q : List Int)
    (hap : inp.ap_present = true) (hai : inp.ai_present = true)
    (hh : inp.handle_present = true)
    (hr : 0 < inp.n_row) (hc : 0 < inp.n_col)
    (hnz : 0 ≤ inp.Ap.getD inp.n_col.toNat 0)
    (hq : inp.Quser = some q)
    (hnp : ¬ IsPermOfRange q inp.n_col.toNat) :
    symbolic_validate inp = some ⟨Status.invalid_permutation, none⟩ := by
  unfold symbolic_validate
  have h1 : ¬ (inp.ai_present = false ∨ inp.ap_present = false ∨
      inp.handle_present = false) := by
    simp [hap, hai, hh]
  have h2 : ¬ (inp.n_row ≤ 0 ∨ inp.n_col ≤ 0) := by omega
  have h3 : ¬ (inp.Ap.getD inp.n_col.toNat 0 < 0) := by omega
  rw [if_neg h1, if_neg h2, if_neg h3, hq]
  have h4 : UMF_is_permutation q inp.n_col.toNat = false := by
    unfold UMF_is_permutation
    exact decide_eq_false hnp
  simp [h4]

/-- C4 witness: the T6 scenario — Quser = [0,0,1,2] on a valid 4-by-4
pattern is rejected as invalid_permutation with a null Symbolic handle. -/
theorem invalid_quser_rejected_witness :
    symbolic_validate ⟨4, 4, [0, 1, 2, 3, 4], true, true, true,
        some [0, 0, 1, 2]⟩ =
      some ⟨Status.invalid_permutation, none⟩ :=
  invalid_quser_rejected ⟨4, 4, [0, 1, 2, 3, 4], true, true, true,
      some [0, 0, 1, 2]⟩ [0, 0, 1, 2]
    rfl rfl rfl (by decide) (by decide) (by decide) rfl (by decide)

/-- C7: whenever the diagonal map is produced (prefer_diagonal or a Paru
caller, square matrix), Diagonal_map[k] is exactly the inverse of
Rperm_init applied to Cperm_init[k]: it is the unique new row index whose
Rperm_init value equals the original column Cperm_init[k]. -/
theorem diagonal_map_is_inverse_composition (Cperm_init Rperm_init : List Int)
    (nn : Nat) (hR : IsPermOfRange Rperm_init nn)
    (hC : ∀ k, k < nn →
      0 ≤ Cperm_init.getD k 0 ∧ Cperm_init.getD k 0 < (nn : Int)) :
    ∀ k, k < nn →
      0 ≤ (build_diagonal_map Cperm_init Rperm_init nn).getD k 0 ∧
      (build_diagonal_map Cperm_init Rperm_init nn).getD k 0 < (nn : Int) ∧
      Rperm_init.getD
          ((build_diagonal_map Cperm_init Rperm_init nn).getD k 0).toNat 0 =
        Cperm_init.getD k 0 ∧
      (∀ j, j < nn → Rperm_init.getD j 0 = Cperm_init.getD k 0 →
        (j : Int) = (build_diagonal_map Cperm_init Rperm_init nn).getD k 0) := by
  intro k hk
  have hmap : (build_diagonal_map Cperm_init Rperm_init nn).getD k 0 =
      (build_inverse Rperm_init nn).getD (Cperm_init.getD k 0).toNat 0 := by
    unfold build_diagonal_map
    have hlen : k < ((List.range nn).map (fun newcol =>
        (build_inverse Rperm_init nn).getD
          (Cperm_init.getD newcol 0).toNat 0)).length := by
      simpa using hk
    rw [getD_of_lt _ _ _ hlen]
    simp
  obtain ⟨j, hj, hval⟩ := hR.surj (hC k hk).1 (hC k hk).2
  have hinvj : (build_inverse Rperm_init nn).getD
      (Cperm_init.getD k 0).toNat 0 = (j : Int) := by
    rw [← hval]
    exact build_inverse_getD Rperm_init nn hR j hj
  rw [hmap, hinvj]
  refine ⟨by omega, by omega, ?_, ?_⟩
  · rw [Int.toNat_natCast]
    exact hval
  · intro j' hj' hval'
    have : j' = j := hR.2.2 j' hj' j hj (by rw [hval, hval'])
    omega

/-- C7 witness: a concrete 3-by-3 instance with Rperm_init = [2,0,1] and
Cperm_init = [1,2,0]; the resulting map is computed and its defining
property checked at k = 0. -/
theorem diagonal_map_is_inverse_composition_witness :
    0 ≤ (build_diagonal_map [1, 2, 0] [2, 0, 1] 3).getD 0 0 ∧
    (build_diagonal_map [1, 2, 0] [2, 0, 1] 3).getD 0 0 < (3 : Int) ∧
    ([2, 0, 1] : List Int).getD
        ((build_diagonal_map [1, 2, 0] [2, 0, 1] 3).getD 0 0).toNat 0 =
      ([1, 2, 0] : List Int).getD 0 0 ∧
    (∀ j, j < 3 → ([2, 0, 1] : List Int).getD j 0 =
        ([1, 2, 0] : List Int).getD 0 0 →
      (j : Int) = (build_diagonal_map [1, 2, 0] [2, 0, 1] 3).getD 0 0) :=
  diagonal_map_is_inverse_composition [1, 2, 0] [2, 0, 1] 3
    (by constructor; · rfl
        constructor
        · intro j hj
          interval_cases j <;> simp
        · intro j₁ h₁ j₂ h₂ h
          interval_cases j₁ <;> interval_cases j₂ <;> simp_all)
    (by intro k hk
        interval_cases k <;> simp)
    0 (by omega)

/-! ### Claim theorems C5, C9, C10 -/

/-- C5: under the unsymmetric strategy with no Quser and ordering
metis-guard, the ordering used resolves to colamd when the pruned matrix is
empty, to colamd when max_rdeg exceeds the dense-degree threshold computed
from the dense_row factor and ncol2, and to metis otherwise.  (In the
source, option value UMFPACK_ORDERING_AMD on this path means UMF_colamd is
called and Symbolic->ordering is recorded as UMFPACK_ORDERING_AMD; the
metis option routes to the external-ordering dispatch.) -/
theorem metis_guard_ordering_resolution (nrow2 ncol2 max_rdeg : Int) (drow : ℚ)
    (dense_degree : ℚ → Int → Int) :
    (nrow2 = 0 ∨ ncol2 = 0 →
      metis_guard_resolve UMFPACK_ORDERING_METIS_GUARD nrow2 ncol2 max_rdeg
        drow dense_degree = UMFPACK_ORDERING_AMD ∧
      unsym_ordering_dispatch
        (metis_guard_resolve UMFPACK_ORDERING_METIS_GUARD nrow2 ncol2 max_rdeg
          drow dense_degree) nrow2 ncol2 = UnsymPath.colamd_route) ∧
    (nrow2 ≠ 0 → ncol2 ≠ 0 → dense_degree drow ncol2 < max_rdeg →
      metis_guard_resolve UMFPACK_ORDERING_METIS_GUARD nrow2 ncol2 max_rdeg
        drow dense_degree = UMFPACK_ORDERING_AMD ∧
      unsym_ordering_dispatch
        (metis_guard_resolve UMFPACK_ORDERING_METIS_GUARD nrow2 ncol2 max_rdeg
          drow dense_degree) nrow2 ncol2 = UnsymPath.colamd_route) ∧
    (0 < nrow2 → 0 < ncol2 → max_rdeg ≤ dense_degree drow ncol2 →
      metis_guard_resolve UMFPACK_ORDERING_METIS_GUARD nrow2 ncol2 max_rdeg
        drow dense_degree = UMFPACK_ORDERING_METIS ∧
      unsym_ordering_dispatch
        (metis_guard_resolve UMFPACK_ORDERING_METIS_GUARD nrow2 ncol2 max_rdeg
          drow dense_degree) nrow2 ncol2 = UnsymPath.external_route) := by
  unfold metis_guard_resolve unsym_ordering_dispatch UMFPACK_ORDERING_METIS_GUARD
    UMFPACK_ORDERING_AMD UMFPACK_ORDERING_METIS UMFPACK_ORDERING_USER
    UMFPACK_ORDERING_NONE UMFPACK_ORDERING_CHOLMOD UMFPACK_ORDERING_BEST
  refine ⟨fun h => ?_, fun h1 h2 h3 => ?_, fun h1 h2 h3 => ?_⟩ <;>
    split_ifs <;>
    refine ⟨by first | rfl | omega, by first | rfl | omega⟩

/-- C5 witness: the three branches at concrete sizes (empty pruned matrix;
a dense row exceeding the threshold; the metis case). -/
theorem metis_guard_ordering_resolution_witness :
    metis_guard_resolve UMFPACK_ORDERING_METIS_GUARD 0 3 1 1
      (fun _ n => 16 * n) = UMFPACK_ORDERING_AMD ∧
    metis_guard_resolve UMFPACK_ORDERING_METIS_GUARD 4 3 50 1
      (fun _ n => 16 * n) = UMFPACK_ORDERING_AMD ∧
    metis_guard_resolve UMFPACK_ORDERING_METIS_GUARD 4 3 2 1
      (fun _ n => 16 * n) = UMFPACK_ORDERING_METIS :=
  ⟨((metis_guard_ordering_resolution 0 3 1 1 (fun _ n => 16 * n)).1
      (Or.inl rfl)).1,
   ((metis_guard_ordering_resolution 4 3 50 1 (fun _ n => 16 * n)).2.1
      (by decide) (by decide) (by decide)).1,
   ((metis_guard_ordering_resolution 4 3 2 1 (fun _ n => 16 * n)).2.2
      (by decide) (by decide) (by decide)).1⟩

/-- C9: UMFPACK_free_numeric is null-safe and idempotent: a null handle or
a null object is a no-op; otherwise all 13 component blocks are freed and
the handle is set to null, so a repeated call on the same handle frees
nothing and leaves the handle unchanged. -/
theorem free_numeric_null_safe_idempotent :
    UMFPACK_free_numeric none = (none, []) ∧
    UMFPACK_free_numeric (some none) = (some none, []) ∧
    (∀ nu : NumericType,
      UMFPACK_free_numeric (some (some nu)) =
        (some none,
         [NComp.d, NComp.rperm, NComp.cperm, NComp.lpos, NComp.lilen,
          NComp.lip, NComp.upos, NComp.uilen, NComp.uip, NComp.rs,
          NComp.upattern, NComp.memory, NComp.header])) ∧
    (∀ handle : Option (Option NumericType),
      UMFPACK_free_numeric (UMFPACK_free_numeric handle).1 =
        ((UMFPACK_free_numeric handle).1, [])) := by
  refine ⟨rfl, rfl, fun nu => rfl, fun handle => ?_⟩
  rcases handle with _ | _ | nu <;> rfl

/-- C10: out-of-range configuration never causes an error return: an
unrecognized ordering option is replaced by the default ordering, ordering
"given" without a Quser (or "user" without a callback) becomes "none", an
unrecognized or obsolete strategy is replaced by auto, and the adopted
ordering and strategy always land in the recognized sets (no error status
exists on this path). -/
theorem config_out_of_range_silently_replaced :
    (∀ opt : Int, opt < 0 ∨ UMFPACK_ORDERING_METIS_GUARD < opt →
      sanitize_ordering opt = UMFPACK_DEFAULT_ORDERING) ∧
    (∀ fn : Bool,
      resolve_ordering_with_user UMFPACK_ORDERING_GIVEN false fn =
        UMFPACK_ORDERING_NONE) ∧
    (resolve_ordering_with_user UMFPACK_ORDERING_USER false false =
      UMFPACK_ORDERING_NONE) ∧
    (∀ s : Int, (s < UMFPACK_STRATEGY_AUTO ∨ UMFPACK_STRATEGY_SYMMETRIC < s ∨
        s = UMFPACK_STRATEGY_OBSOLETE) →
      sanitize_strategy s = UMFPACK_STRATEGY_AUTO) ∧
    (∀ (opt : Int) (q fn : Bool),
      fix_ordering_option opt q fn ∈
        [UMFPACK_ORDERING_CHOLMOD, UMFPACK_ORDERING_AMD, UMFPACK_ORDERING_GIVEN,
         UMFPACK_ORDERING_METIS, UMFPACK_ORDERING_BEST, UMFPACK_ORDERING_NONE,
         UMFPACK_ORDERING_USER, UMFPACK_ORDERING_METIS_GUARD]) ∧
    (∀ (s n_row n_col : Int) (q : Bool),
      fix_strategy s n_row n_col q ∈
        [UMFPACK_STRATEGY_AUTO, UMFPACK_STRATEGY_UNSYMMETRIC,
         UMFPACK_STRATEGY_SYMMETRIC]) := by
  refine ⟨?_, ?_, by decide, ?_, ?_, ?_⟩
  · intro opt h
    simp only [sanitize_ordering, if_pos h]
  · intro fn
    cases fn <;> decide
  · intro s h
    simp only [sanitize_strategy, if_pos h]
  · intro opt q fn
    have hrange : 0 ≤ sanitize_ordering opt ∧
        sanitize_ordering opt ≤ UMFPACK_ORDERING_METIS_GUARD := by
      unfold sanitize_ordering UMFPACK_DEFAULT_ORDERING UMFPACK_ORDERING_AMD
        UMFPACK_ORDERING_METIS_GUARD
      split_ifs with h
      · omega
      · push_neg at h
        have := h.2
        unfold UMFPACK_ORDERING_METIS_GUARD at this
        omega
    unfold fix_ordering_option resolve_ordering_with_user
    split_ifs with h1 h2
    · decide
    · set o := sanitize_ordering opt with ho
      have h0 : (0:Int) ≤ o := hrange.1
      have h7 : o ≤ 7 := hrange.2
      interval_cases o <;> decide
    · decide
  · intro s n_row n_col q
    unfold fix_strategy clamp_strategy_for_quser sanitize_strategy
      force_rectangular_strategy UMFPACK_STRATEGY_AUTO
      UMFPACK_STRATEGY_UNSYMMETRIC UMFPACK_STRATEGY_OBSOLETE
      UMFPACK_STRATEGY_SYMMETRIC
    split_ifs <;> (simp_all; try omega)

/-- C10 witness: an ordering option of 99 is replaced by the default
ordering and a strategy of 42 is replaced by auto. -/
theorem config_out_of_range_silently_replaced_witness :
    sanitize_ordering 99 = UMFPACK_DEFAULT_ORDERING ∧
    sanitize_strategy 42 = UMFPACK_STRATEGY_AUTO :=
  ⟨config_out_of_range_silently_replaced.1 99 (by decide),
   config_out_of_range_silently_replaced.2.2.2.1 42 (by decide)⟩

/-- C8: for every successful call the reported lunz_bound equals
lnz + unz - n_inner, where lnz and unz are the simulated nonzero bounds of
L and U (n_inner for the unit diagonal, plus the singleton contributions
Cdeg[k]-1 resp. Rdeg[k]-1, plus the per-front contributions), and
n_inner = min(n_row, n_col).  The front tree must be well-formed (every
parent is EMPTY or a strictly later front, as UMF_analyze guarantees), so
that the chains cover each front exactly once. -/
theorem lunz_bound_accumulated (M : UnitsModel) (inp : SimInputs)
    (hwf : ∀ i, i < inp.fronts.nfr →
      inp.fronts.parent.getD i 0 = EMPTY ∨
      ((i : Int) < inp.fronts.parent.getD i 0 ∧
        inp.fronts.parent.getD i 0 < (inp.fronts.nfr : Int)))
    (hinner : inp.n_inner = min inp.n_row inp.n_col) :
    (simulate M inp).lunz_bound =
      spec_lnz inp + spec_unz inp - ((min inp.n_row inp.n_col : Nat) : ℚ) ∧
    (simulate M inp).dlnz = spec_lnz inp ∧
    (simulate M inp).dunz = spec_unz inp := by
  have hlast : inp.fronts.nfr = 0 ∨
      inp.fronts.parent.getD (inp.fronts.nfr - 1) 0 ≠
        ((inp.fronts.nfr - 1 : Nat) : Int) + 1 := by
    rcases Nat.eq_zero_or_pos inp.fronts.nfr with h0 | hpos
    · exact Or.inl h0
    · right
      intro hc
      rcases hwf (inp.fronts.nfr - 1) (by omega) with h | ⟨h1, h2⟩
      · unfold EMPTY at h
        omega
      · omega
  have hcov := build_chains_join inp.fronts.nrows inp.fronts.ncols
    inp.fronts.parent inp.fronts.nfr hlast
  have hdl : (simulate M inp).dlnz = (sim_setup M inp).dlnz +
      ((List.range inp.fronts.nfr).map (front_dlf inp.fronts)).sum := by
    dsimp only [simulate, sim_after]
    rw [foldl_proj_add SimState.dlnz (sim_chain M inp.nb inp.fronts)
      (fun ch => (ch.fronts.map (front_dlf inp.fronts)).sum)
      (sim_chain_dlnz M inp.nb inp.fronts)]
    rw [← hcov, sum_over_flatten (front_dlf inp.fronts), List.map_map]
    rfl
  have hdu : (simulate M inp).dunz = (sim_setup M inp).dunz +
      ((List.range inp.fronts.nfr).map (front_duf inp.fronts)).sum := by
    dsimp only [simulate, sim_after]
    rw [foldl_proj_add SimState.dunz (sim_chain M inp.nb inp.fronts)
      (fun ch => (ch.fronts.map (front_duf inp.fronts)).sum)
      (sim_chain_dunz M inp.nb inp.fronts)]
    rw [← hcov, sum_over_flatten (front_duf inp.fronts), List.map_map]
    rfl
  have hL : (simulate M inp).dlnz = spec_lnz inp := by
    rw [hdl, sim_setup_dlnz]
    unfold spec_lnz
    ring
  have hU : (simulate M inp).dunz = spec_unz inp := by
    rw [hdu, sim_setup_dunz]
    unfold spec_unz
    ring
  have hlunz : (simulate M inp).lunz_bound =
      (simulate M inp).dlnz + (simulate M inp).dunz - (inp.n_inner : ℚ) := by
    dsimp only [simulate]
  refine ⟨?_, hL, hU⟩
  rw [hlunz, hL, hU, hinner]

/-- C8 witness: the claim theorem instantiated at the unit-granule model
and the 2-by-2 one-front input. -/
theorem lunz_bound_accumulated_witness :
    (simulate unitModel simInputW).lunz_bound =
      spec_lnz simInputW + spec_unz simInputW -
        ((min simInputW.n_row simInputW.n_col : Nat) : ℚ) ∧
    (simulate unitModel simInputW).dlnz = spec_lnz simInputW ∧
    (simulate unitModel simInputW).dunz = spec_unz simInputW :=
  lunz_bound_accumulated unitModel simInputW (by decide) (by decide)

/-- C3 (amended): the memory estimates satisfy
num_mem_usage_est >= num_mem_size_est, num_mem_usage_est >=
num_mem_init_usage and num_mem_init_usage >= 2, for any storage model
with nonnegative sizes and well-formed inputs (singleton degrees at
least 1, nonnegative dense-row threshold and blocking factor, postordered
front tree, pivot columns within the front width).  The spec's stronger
middle link num_mem_size_est >= num_mem_init_usage is refuted by the
counterexample below: the final head usage does not include the workspace
and elements counted in the initial usage. -/
theorem memory_estimates_ordered (M : UnitsModel) (inp : SimInputs)
    (hM : ModelOk M)
    (hd1 : ∀ k, k < inp.n1 → 1 ≤ inp.Cdeg.getD k 0 ∧ 1 ≤ inp.Rdeg.getD k 0)
    (hdt : 0 ≤ inp.dense_row_threshold)
    (hnb : 0 ≤ inp.nb)
    (hwf : ∀ i, i < inp.fronts.nfr → inp.fronts.parent.getD i 0 = EMPTY ∨
      ((i : Int) < inp.fronts.parent.getD i 0 ∧
        inp.fronts.parent.getD i 0 < (inp.fronts.nfr : Int)))
    (hpc : ∀ j, j < inp.fronts.nfr →
      inp.fronts.npivcol.getD j 0 ≤ inp.fronts.ncols.getD j 0) :
    2 ≤ (simulate M inp).num_mem_init_usage ∧
    (((simulate M inp).num_mem_init_usage : Int) : ℚ) ≤
      (simulate M inp).num_mem_usage_est ∧
    (simulate M inp).num_mem_size_est ≤
      (simulate M inp).num_mem_usage_est := by
  obtain ⟨hh, ht, hq⟩ := sim_setup_ge M inp hM hd1 hdt
  have hz1 : 0 ≤ M.uIntPtr ((inp.n_row : Int) + 1) := hM.1 _ (by omega)
  have hz2 : 0 ≤ M.uEntryPtr ((inp.n_row : Int) + 1) := hM.2.1 _ (by omega)
  have hz3 : 0 ≤ M.duIntPtr ((inp.n_row : Int) + 1) :=
    hM.2.2.2.2.2.2.2.1 _ (by omega)
  have hz4 : 0 ≤ M.duEntryPtr ((inp.n_row : Int) + 1) :=
    hM.2.2.2.2.2.2.2.2.1 _ (by omega)
  have hreldt : (sim_release M inp).dtail = (sim_setup M inp).dtail -
      (M.duIntPtr ((inp.n_row : Int) + 1) +
        M.duEntryPtr ((inp.n_row : Int) + 1)) := rfl
  have hreldh : (sim_release M inp).dhead = (sim_setup M inp).dhead := rfl
  have hrelmax : (sim_release M inp).dmax =
      max (((sim_setup M inp).head_usage +
          (sim_setup M inp).tail_usage : Int) : ℚ)
        ((qceil ((sim_setup M inp).dhead +
          (sim_setup M inp).dtail) : Int) : ℚ) := rfl
  have hrellink : (sim_release M inp).link =
      List.replicate inp.fronts.nfr EMPTY := rfl
  have hbase : 0 ≤ (sim_release M inp).dtail := by
    rw [hreldt]
    linarith
  have hinv1 : SimInv M inp.fronts ((sim_release M inp).dtail) 0 0
      (sim_release M inp) := by
    refine ⟨?_, ?_, ?_⟩
    · rw [outstanding_zero]
      ring
    · rw [hrellink]
      exact linkInv_replicate inp.fronts
    · rw [hreldh, hrelmax]
      have h1 : (sim_setup M inp).dhead + (sim_setup M inp).dtail ≤
          ((qceil ((sim_setup M inp).dhead +
            (sim_setup M inp).dtail) : Int) : ℚ) := le_qceil _
      refine le_trans ?_ (le_max_right _ _)
      linarith
  have hcov : ((build_chains inp.fronts.nrows inp.fronts.ncols
      inp.fronts.parent inp.fronts.nfr).chains.map
        ChainRec.fronts).flatten = List.range' 0 inp.fronts.nfr := by
    rw [build_chains_join _ _ _ _ (parent_last_ne inp.fronts hwf)]
    exact List.range_eq_range' inp.fronts.nfr
  have hge := build_chains_ge_one inp.fronts.nrows inp.fronts.ncols
    inp.fronts.parent inp.fronts.nfr
  have hfold := sim_chains_fold M inp.nb inp.fronts hM hwf hpc hnb
    (build_chains inp.fronts.nrows inp.fronts.ncols inp.fronts.parent
      inp.fronts.nfr).chains
    0 inp.fronts.nfr (sim_release M inp) hge hcov (by omega)
    ((sim_release M inp).dtail) hbase hinv1
  have hafter : SimInv M inp.fronts ((sim_release M inp).dtail) 0
      (0 + inp.fronts.nfr) (sim_after M inp) ∧
      (sim_release M inp).dmax ≤ (sim_after M inp).dmax := hfold
  obtain ⟨⟨hadt, hali, hahd⟩, hamax⟩ := hafter
  refine ⟨?_, ?_, ?_⟩
  · show 2 ≤ (sim_setup M inp).head_usage + (sim_setup M inp).tail_usage
    omega
  · show (((sim_setup M inp).head_usage +
        (sim_setup M inp).tail_usage : Int) : ℚ) ≤
      ((qceil (sim_after M inp).dmax : Int) : ℚ)
    have h1 : (((sim_setup M inp).head_usage +
        (sim_setup M inp).tail_usage : Int) : ℚ) ≤
        (sim_release M inp).dmax := by
      rw [hrelmax]
      exact le_max_left _ _
    have h3 := intCast_le_qceil (le_trans h1 hamax)
    exact_mod_cast h3
  · show ((qceil (sim_after M inp).dhead : Int) : ℚ) ≤
      ((qceil (sim_after M inp).dmax : Int) : ℚ)
    exact_mod_cast qceil_mono hahd

/-- C3 witness: the amended theorem instantiated at the unit-granule
model and the 2-by-2 one-front input. -/
theorem memory_estimates_ordered_witness :
    2 ≤ (simulate unitModel simInputW).num_mem_init_usage ∧
    (((simulate unitModel simInputW).num_mem_init_usage : Int) : ℚ) ≤
      (simulate unitModel simInputW).num_mem_usage_est ∧
    (simulate unitModel simInputW).num_mem_size_est ≤
      (simulate unitModel simInputW).num_mem_usage_est :=
  memory_estimates_ordered unitModel simInputW unitModel_ok
    (by decide) (by decide) (by decide) (by decide) (by decide)

/-- C3 counterexample: at the spec's own T1 scenario (3-by-3 diagonal,
all pivots singletons) the final head usage rounds to 1 Unit while the
recorded initial usage is far larger, so num_mem_size_est <
num_mem_init_usage and the claimed chain fails at its middle link. -/
theorem memory_estimates_counterexample :
    ModelOk unitModel ∧ ¬ mem_chain_claim (simulate unitModel simInputT1) := by
  refine ⟨unitModel_ok, fun h => ?_⟩
  have h1 := h.2.1
  have e1 : (simulate unitModel simInputT1).num_mem_init_usage = 13 := by
    decide
  have e2 : (simulate unitModel simInputT1).num_mem_size_est =
      ((1 : Int) : ℚ) := by with_unfolding_all rfl
  rw [e1, e2] at h1
  norm_num at h1

end UMF
